import Mathlib

/-!
# testapp.c: xorshift32 keystream, block transform, block copier, three-phase pipeline

A shallow embedding of `src/testapp.c`.

* `uint32_t` values are natural numbers below `2 ^ 32`; every left shift is
  reduced modulo `2 ^ 32` as the C arithmetic does.
* `long` values (`seed`, `numblocks`) are integers; storing a `long` into the
  `uint32_t` state word reduces it modulo `2 ^ 32`.
* The file system maps a path to the bytes of the file (`none`: no such file).
  Distinct path strings stand for distinct files.  Streams write through.
* Every `fopen`, `fread` and `fwrite` call takes the next entry of a list of
  outcomes held by the world, so a run can meet an I/O error at any call.
  `fclose` changes nothing and is left out.
* The global buffer `blocks` is part of the world.
* `main` starts after the option loop: its inputs are the three option
  arguments.  What libblkid reports is an input; the partition report of
  lines 240-275 can meet undefined behaviour, and then the run has no
  result.  `hdparm` and the size query only print.
-/

namespace Testapp

/-! ## Data model -/

/-- One `uint8_t`. -/
abbrev Byte := Fin 256

/-- Byte order of the machine: the transform reads and writes the buffer
through a `uint32_t *`, so the order is the native one. -/
inductive ByteOrder
  | little
  | big
  deriving DecidableEq

/-- The byte of `w` at weight `256 ^ i`. -/
def byte_of (w i : Nat) : Byte :=
  ⟨(w / 256 ^ i) % 256, Nat.mod_lt _ (by decide)⟩

/-- Load through `uint32_t *ptr`: the value of four consecutive bytes. -/
def load32 (bo : ByteOrder) : List Byte → Nat
  | [b0, b1, b2, b3] =>
    match bo with
    | .little => b0.val + 256 * (b1.val + 256 * (b2.val + 256 * b3.val))
    | .big => b3.val + 256 * (b2.val + 256 * (b1.val + 256 * b0.val))
  | _ => 0

/-- Store through `uint32_t *ptr`: the four bytes of a 32-bit value. -/
def store32 (bo : ByteOrder) (w : Nat) : List Byte :=
  match bo with
  | .little => [byte_of w 0, byte_of w 1, byte_of w 2, byte_of w 3]
  | .big => [byte_of w 3, byte_of w 2, byte_of w 1, byte_of w 0]

/-! ## Keystream generator (testapp.c lines 13-26) -/

/-- Generator state: `struct xorshift32_state { uint32_t a; }`. -/
structure xorshift32_state where
  a : Nat
  deriving DecidableEq

/-- The function `xorshift32`: returns the drawn word and the updated state
(`return state->a = x;`). -/
def xorshift32 (state : xorshift32_state) : Nat × xorshift32_state :=
  let x := state.a
  let x := x ^^^ ((x <<< 13) % 2 ^ 32)
  let x := x ^^^ (x >>> 17)
  let x := x ^^^ ((x <<< 5) % 2 ^ 32)
  (x, { a := x })

/-- The 32-bit step as the specification writes it: `x ^= x << 13;
x ^= x >> 17; x ^= x << 5`, every shift truncated to 32 bits. -/
def spec_step (x : Nat) : Nat :=
  let x := x ^^^ ((x <<< 13) % 2 ^ 32)
  let x := x ^^^ ((x >>> 17) % 2 ^ 32)
  let x := x ^^^ ((x <<< 5) % 2 ^ 32)
  x

/-- The first `n` words drawn from a state, in the order they are drawn. -/
def keystream : Nat → xorshift32_state → List Nat
  | 0, _ => []
  | n + 1, state => (xorshift32 state).1 :: keystream n (xorshift32 state).2

/-- The state after `n` draws. -/
def state_after : Nat → xorshift32_state → xorshift32_state
  | 0, state => state
  | n + 1, state => state_after n (xorshift32 state).2

/-! ## Block transform (testapp.c lines 61-63, 86-91) -/

/-- The constant `SINGLE_BLOCK_SIZE`. -/
def SINGLE_BLOCK_SIZE : Nat := 1024 * 1024

/-- The statement pair `ptr = (uint32_t *)&blocks[j*sizeof(uint32_t)]; *ptr ^= dw;`. -/
def xor_word (bo : ByteOrder) (blocks : List Byte) (j dw : Nat) : List Byte :=
  let p := j * 4
  blocks.take p ++ store32 bo (load32 bo ((blocks.drop p).take 4) ^^^ dw) ++ blocks.drop (p + 4)

/-- The inner loop `for (j = ...; j < bound; j++)` of `transform_file`, with
`count` iterations left.  `transform_file` runs it with `j = 0` and
`count = SINGLE_BLOCK_SIZE / sizeof(uint32_t)`. -/
def xor_loop (bo : ByteOrder) : Nat → Nat → List Byte → xorshift32_state →
    List Byte × xorshift32_state
  | 0, _, blocks, state => (blocks, state)
  | count + 1, j, blocks, state =>
    let r := xorshift32 state
    xor_loop bo count (j + 1) (xor_word bo blocks j r.1) r.2

/-- The assignment `state.a = seed;`: a `long` stored into a `uint32_t`. -/
def state_of_seed (seed : Int) : xorshift32_state :=
  { a := (seed % 2 ^ 32).toNat }

/-- The word-wise transform of a whole buffer: the generator is set from the
seed and one word is drawn for each 4-byte position. -/
def transform_buffer (bo : ByteOrder) (seed : Int) (buf : List Byte) : List Byte :=
  (xor_loop bo (buf.length / 4) 0 buf (state_of_seed seed)).1

/-- Word `n` of a byte sequence, loaded in the given byte order. -/
def word_at (bo : ByteOrder) (buf : List Byte) (n : Nat) : Nat :=
  load32 bo ((buf.drop (4 * n)).take 4)

/-- Chunk-wise form of the inner loop: every complete 4-byte group is
combined with the next drawn word.  Used to reason about `xor_loop`. -/
def xor_words (bo : ByteOrder) : List Byte → xorshift32_state → List Byte × xorshift32_state
  | b0 :: b1 :: b2 :: b3 :: rest, state =>
    let r := xorshift32 state
    let t := xor_words bo rest r.2
    (store32 bo (load32 bo [b0, b1, b2, b3] ^^^ r.1) ++ t.1, t.2)
  | short, state => (short, state)

/-! ## Files and streams -/

/-- Result of one I/O call as decided by the environment: it goes through,
or it fails after `transferred` bytes. -/
inductive Outcome
  | ok
  | error (transferred : Nat)
  deriving DecidableEq

/-- The world the program runs in. -/
structure World where
  /-- Content of every path; `none` when the file does not exist. -/
  fs : String → Option (List Byte)
  /-- Outcomes of the coming I/O calls; an exhausted list means success. -/
  faults : List Outcome
  /-- The global `uint8_t blocks[SINGLE_BLOCK_SIZE]`. -/
  blocks : List Byte

/-- An open stream: the file it is bound to and its position. -/
structure FILE where
  path : String
  pos : Nat
  deriving DecidableEq

/-- The `fopen` modes the program uses: `"rb"`, `"wb"`, `"rb+"`. -/
inductive Mode
  | rb
  | wb
  | rb_plus
  deriving DecidableEq

/-- Take the outcome of the next I/O call. -/
def next_outcome (w : World) : Outcome × World :=
  match w.faults with
  | [] => (Outcome.ok, w)
  | o :: rest => (o, { w with faults := rest })

/-- No I/O error is pending. -/
def NoFaults (w : World) : Prop := ∀ o ∈ w.faults, o = Outcome.ok

/-- The bytes of a file after `data` is written at `pos` (a gap is zero-filled). -/
def write_at (old : List Byte) (pos : Nat) (data : List Byte) : List Byte :=
  old.take pos ++ List.replicate (pos - old.length) 0 ++ data ++ old.drop (pos + data.length)

/-- The call `fopen(path, mode)`: `"wb"` creates or truncates, `"rb"` and
`"rb+"` need an existing file and leave it as it is. -/
def fopen (path : String) (mode : Mode) (w : World) : Option FILE × World :=
  let r := next_outcome w
  match r.1 with
  | Outcome.error _ => (none, r.2)
  | Outcome.ok =>
    match mode with
    | Mode.wb => (some ⟨path, 0⟩, { r.2 with fs := Function.update r.2.fs path (some []) })
    | _ => if (r.2.fs path).isSome then (some ⟨path, 0⟩, r.2) else (none, r.2)

/-- The call `fread(blocks, SINGLE_BLOCK_SIZE, 1, f)`: returns the number of
complete items read (1 or 0); the bytes that were read land in `blocks`. -/
def fread (f : FILE) (w : World) : Nat × FILE × World :=
  let r := next_outcome w
  let avail := (((r.2.fs f.path).getD []).drop f.pos).take SINGLE_BLOCK_SIZE
  let got := match r.1 with
    | Outcome.ok => avail
    | Outcome.error n => avail.take n
  let done := if r.1 = Outcome.ok ∧ got.length = SINGLE_BLOCK_SIZE then 1 else 0
  (done, ⟨f.path, f.pos + got.length⟩, { r.2 with blocks := got ++ r.2.blocks.drop got.length })

/-- The call `fwrite(blocks, SINGLE_BLOCK_SIZE, 1, f)`: returns the number of
complete items written (1 or 0). -/
def fwrite (f : FILE) (w : World) : Nat × FILE × World :=
  let r := next_outcome w
  let data := r.2.blocks.take SINGLE_BLOCK_SIZE
  let sent := match r.1 with
    | Outcome.ok => data
    | Outcome.error n => data.take n
  let old := (r.2.fs f.path).getD []
  let done := if r.1 = Outcome.ok then 1 else 0
  (done, ⟨f.path, f.pos + sent.length⟩,
    { r.2 with fs := Function.update r.2.fs f.path (some (write_at old f.pos sent)) })

/-! ## transform_file (testapp.c lines 65-108) -/

/-- The outer loop of `transform_file` with `n` iterations left.  Returns
`ret`, both streams, the generator state and the world. -/
def transform_loop (bo : ByteOrder) : Nat → FILE → FILE → xorshift32_state → World →
    Int × FILE × FILE × xorshift32_state × World
  | 0, fin, fout, state, w => (0, fin, fout, state, w)
  | n + 1, fin, fout, state, w =>
    let r := fread fin w
    if r.1 ≠ 1 then (-1, r.2.1, fout, state, r.2.2) else
    let x := xor_loop bo (SINGLE_BLOCK_SIZE / 4) 0 r.2.2.blocks state
    let w1 : World := { r.2.2 with blocks := x.1 }
    let s := fwrite fout w1
    if s.1 ≠ 1 then (-1, r.2.1, s.2.1, x.2, s.2.2) else
    transform_loop bo n r.2.1 s.2.1 x.2 s.2.2

/-- The function `transform_file(in, out, seed, numblocks)`. -/
def transform_file (bo : ByteOrder) (inp out : String) (seed numblocks : Int) (w : World) :
    Int × World :=
  let a := fopen inp Mode.rb w
  let b := fopen out Mode.wb a.2
  match a.1, b.1 with
  | some fin, some fout =>
    let r := transform_loop bo numblocks.toNat fin fout (state_of_seed seed) b.2
    (r.1, r.2.2.2.2)
  | _, _ => (-1, b.2)

/-! ## write_file (testapp.c lines 110-143) -/

/-- The loop of `write_file` with `n` iterations left.  Returns `ret`, both
streams and the world. -/
def write_loop : Nat → FILE → FILE → World → Int × FILE × FILE × World
  | 0, fin, fout, w => (0, fin, fout, w)
  | n + 1, fin, fout, w =>
    let r := fread fin w
    if r.1 ≠ 1 then (-1, r.2.1, fout, r.2.2) else
    let s := fwrite fout r.2.2
    if s.1 ≠ 1 then (-1, r.2.1, s.2.1, s.2.2) else
    write_loop n r.2.1 s.2.1 s.2.2

/-- The function `write_file(in, out, numblocks)`. -/
def write_file (inp out : String) (numblocks : Int) (w : World) : Int × World :=
  let a := fopen inp Mode.rb w
  let b := fopen out Mode.rb_plus a.2
  match a.1, b.1 with
  | some fin, some fout =>
    let r := write_loop numblocks.toNat fin fout b.2
    (r.1, r.2.2.2)
  | _, _ => (-1, b.2)

/-! ## main (testapp.c lines 145-333) -/

/-- The characters `fgets` stores when at most `n` may be taken: input up to
and including the first newline. -/
def fgets_chars : Nat → List Char → List Char
  | 0, _ => []
  | _, [] => []
  | n + 1, c :: cs => if c = Char.ofNat 10 then [c] else c :: fgets_chars n cs

/-- The call `fgets(buf, size, stdin)`: `none` (NULL, buffer untouched) at
end of input, else the stored characters. -/
def fgets (size : Nat) (stdin : List Char) : Option (List Char) :=
  match stdin with
  | [] => none
  | _ => some (fgets_chars (size - 1) stdin)

/-- A character array read as a C string: up to the first NUL. -/
def cstr (buf : List Char) : List Char :=
  buf.takeWhile (fun c => c ≠ Char.ofNat 0)

/-- The call `strstr(haystack, needle)`: the tail of the haystack from the
first occurrence of the needle, `none` (NULL) when there is none. -/
def strstr : List Char → List Char → Option (List Char)
  | [], needle => if needle.isEmpty then some [] else none
  | c :: t, needle => if needle.isPrefixOf (c :: t) then some (c :: t) else strstr t needle

/-- The body of the confirmed branch of `main` (lines 312-329). -/
def run_phases (bo : ByteOrder) (file_str : String) (seed numblocks : Int) (w : World) :
    Int × World :=
  let bkpfile_str := "./bkp"
  let xorfile_str := "./bkp.xor"
  let r1 := write_file file_str bkpfile_str numblocks w
  if r1.1 ≠ 0 then (-1, r1.2) else
  let r2 := transform_file bo bkpfile_str xorfile_str seed numblocks r1.2
  if r2.1 ≠ 0 then (-1, r2.2) else
  let r3 := write_file xorfile_str file_str numblocks r2.2
  if r3.1 ≠ 0 then (-1, r3.2) else
  (0, r3.2)

/-- What libblkid reports about the target and its partitions
(lines 235-275). -/
structure Blkid where
  /-- Line 235: `blkid_new_probe_from_filename(file_str)` returns a probe. -/
  probe_ok : Bool
  /-- Lines 240-242: `none` when `blkid_probe_get_partitions` returns NULL,
  else the value of `blkid_partlist_numof_partitions`. -/
  partlist : Option Int
  /-- Line 261: `blkid_new_probe_from_filename(dev_name)` returns a probe in
  iteration `i`. -/
  part_probe : Nat → Bool
  /-- Line 264: the lookup of `UUID` stores a pointer in iteration `i`. -/
  has_uuid : Nat → Bool
  /-- Line 266: the lookup of `LABEL` stores a pointer in iteration `i`. -/
  has_label : Nat → Bool
  /-- Line 268: the lookup of `TYPE` stores a pointer in iteration `i`. -/
  has_type : Nat → Bool

/-- How a run of the program ends: `main` returns (or `err` exits) with a
value, or the run meets undefined behaviour, after which C promises
nothing. -/
inductive Result
  | ended (ret : Int) (w : World)
  | undefined

/-- The value of `nparts` tested on line 249: set on line 242 when there is a
partition list, else the variable was never written and `nparts0` is
whatever it holds. -/
def nparts_of (env : Blkid) (nparts0 : Int) : Int :=
  match env.partlist with
  | some n => n
  | none => nparts0

/-- The loop of lines 256-272 with `n` iterations left at index `i`; `uuid`,
`label`, `type` tell whether the pointer of that name has been set.  The
result is `true` when the loop runs to its end, `false` when an iteration
meets undefined behaviour: `sprintf` writes past `dev_name[20]`,
`blkid_do_probe` gets the NULL probe, or `printf` reads a pointer that was
never set. -/
def partition_loop (file_str : String) (env : Blkid) : Nat → Nat → Bool → Bool → Bool → Bool
  | 0, _, _, _, _ => true
  | n + 1, i, uuid, label, type =>
    if 20 < file_str.utf8ByteSize + (Nat.toDigits 10 (i + 1)).length + 1 then false else
    if env.part_probe i = false then false else
    let uuid := uuid || env.has_uuid i
    let label := label || env.has_label i
    let type := type || env.has_type i
    if (uuid && label && type) = false then false else
    partition_loop file_str env n (i + 1) uuid label type

/-- The run gets from line 235 to the prompt of line 307: the probe of the
target is not NULL and the partition report runs to its end. -/
def reaches_prompt (file_str : String) (env : Blkid) (nparts0 : Int) : Prop :=
  env.probe_ok = true ∧
    partition_loop file_str env (nparts_of env nparts0).toNat 0 false false false = true

instance (file_str : String) (env : Blkid) (nparts0 : Int) :
    Decidable (reaches_prompt file_str env nparts0) :=
  inferInstanceAs (Decidable (_ ∧ _))

/-- The function `main` from line 214 on.  The three option arguments are
`none` when the option was not given; `atol` is the C library function;
`env` is what libblkid reports; `nparts0` and `input0` are the contents of
the uninitialised `nparts` and `input`.  `hdparm` and the size query only
print. -/
def main (bo : ByteOrder) (atol : String → Int) (blocks_str seed_str file_str : Option String)
    (env : Blkid) (nparts0 : Int) (stdin input0 : List Char) (w : World) : Result :=
  match blocks_str with
  | none => Result.ended (-1) w
  | some blocks_str =>
  match seed_str with
  | none => Result.ended (-1) w
  | some seed_str =>
  match file_str with
  | none => Result.ended (-1) w
  | some file_str =>
  let seed := atol seed_str
  let numblocks := atol blocks_str
  if env.probe_ok = false then Result.ended 1 w else
  let nparts := nparts_of env nparts0
  if partition_loop file_str env nparts.toNat 0 false false false = false then
    Result.undefined
  else
  let input := (fgets 256 stdin).getD input0
  if (strstr (cstr input) "yes".toList).isSome then
    let r := run_phases bo file_str seed numblocks w
    Result.ended r.1 r.2
  else Result.ended 0 w

/-- The status the parent process sees for a value returned from `main`. -/
def exit_status (ret : Int) : Int := ret % 256

/-! ## Sample inputs -/

/-- A world holding the listed files, with the given outcomes for the coming
I/O calls and the buffer as the loader leaves it (all zero). -/
def world_of (files : List (String × List Byte)) (faults : List Outcome) : World :=
  { fs := fun p => files.lookup p
    faults := faults
    blocks := List.replicate SINGLE_BLOCK_SIZE 0 }

/-- A target whose partition list is empty. -/
def no_partitions : Blkid :=
  { probe_ok := true
    partlist := some 0
    part_probe := fun _ => false
    has_uuid := fun _ => false
    has_label := fun _ => false
    has_type := fun _ => false }

/-- A target with one partition whose device can be probed and has a UUID,
a label and a type. -/
def one_partition : Blkid :=
  { probe_ok := true
    partlist := some 1
    part_probe := fun _ => true
    has_uuid := fun _ => true
    has_label := fun _ => true
    has_type := fun _ => true }

/-- A target with one partition whose device cannot be probed. -/
def lost_partition : Blkid :=
  { probe_ok := true
    partlist := some 1
    part_probe := fun _ => false
    has_uuid := fun _ => false
    has_label := fun _ => false
    has_type := fun _ => false }

/-- The byte pattern `0x00, 0x01, ..., 0xFF` repeating, `n` bytes of it. -/
def pattern (n : Nat) : List Byte :=
  (List.range n).map (fun i => byte_of i 0)

/-- A stand-in for `atol` on the sample command lines, which hold unsigned
decimal numbers only. -/
def sample_atol (s : String) : Int :=
  s.toList.foldl (fun acc ch => 10 * acc + ((ch.toNat - 48 : Nat) : Int)) 0

/-! ## The generator -/

/-- A state xored with its own left shift by `k > 0` (truncated to 32 bits)
determines the state. -/
theorem shl_xor_inj (k : Nat) (hk : 0 < k) (x y : Nat)
    (h : x ^^^ ((x <<< k) % 2 ^ 32) = y ^^^ ((y <<< k) % 2 ^ 32)) : x = y := by
  apply Nat.eq_of_testBit_eq
  intro i
  induction i using Nat.strong_induction_on with
  | _ i ih =>
    have hi := congrArg (fun z => Nat.testBit z i) h
    simp only [Nat.testBit_xor, Nat.testBit_mod_two_pow, Nat.testBit_shiftLeft] at hi
    by_cases hik : k ≤ i
    · have hlow := ih (i - k) (by omega)
      rw [hlow] at hi
      exact Bool.xor_right_inj.mp hi
    · simpa [hik] using hi

/-- A 32-bit state xored with its own right shift by 17 determines the state. -/
theorem shr_xor_inj (x y : Nat) (hx : x < 2 ^ 32) (hy : y < 2 ^ 32)
    (h : x ^^^ (x >>> 17) = y ^^^ (y >>> 17)) : x = y := by
  have hb : ∀ i, (x.testBit i ^^ x.testBit (17 + i)) = (y.testBit i ^^ y.testBit (17 + i)) := by
    intro i
    have hi := congrArg (fun z => Nat.testBit z i) h
    simpa only [Nat.testBit_xor, Nat.testBit_shiftRight] using hi
  have hz : ∀ z, z < 2 ^ 32 → ∀ i, 32 ≤ i → z.testBit i = false := by
    intro z hz i hi
    exact Nat.testBit_lt_two_pow (lt_of_lt_of_le hz (Nat.pow_le_pow_right (by decide) hi))
  have hhi : ∀ i, 15 ≤ i → x.testBit i = y.testBit i := by
    intro i hi
    have hxy := hb i
    rw [hz x hx (17 + i) (by omega), hz y hy (17 + i) (by omega)] at hxy
    simpa using hxy
  apply Nat.eq_of_testBit_eq
  intro i
  have hxy := hb i
  rw [hhi (17 + i) (by omega)] at hxy
  exact Bool.xor_right_inj.mp hxy

theorem shl_xor_lt (k x : Nat) (hx : x < 2 ^ 32) : x ^^^ ((x <<< k) % 2 ^ 32) < 2 ^ 32 :=
  Nat.xor_lt_two_pow hx (Nat.mod_lt _ (by decide))

theorem shr_xor_lt (k x : Nat) (hx : x < 2 ^ 32) : x ^^^ (x >>> k) < 2 ^ 32 := by
  apply Nat.xor_lt_two_pow hx
  rw [Nat.shiftRight_eq_div_pow]
  exact lt_of_le_of_lt (Nat.div_le_self _ _) hx

theorem xorshift32_fst_lt (a : Nat) (ha : a < 2 ^ 32) : (xorshift32 ⟨a⟩).1 < 2 ^ 32 := by
  simp only [xorshift32]
  exact shl_xor_lt 5 _ (shr_xor_lt 17 _ (shl_xor_lt 13 _ ha))

theorem xorshift32_snd (s : xorshift32_state) : (xorshift32 s).2 = ⟨(xorshift32 s).1⟩ := rfl

theorem xorshift32_snd_lt (s : xorshift32_state) (h : s.a < 2 ^ 32) :
    (xorshift32 s).2.a < 2 ^ 32 :=
  xorshift32_fst_lt s.a h

theorem xorshift32_fst_inj (a b : Nat) (ha : a < 2 ^ 32) (hb : b < 2 ^ 32)
    (h : (xorshift32 ⟨a⟩).1 = (xorshift32 ⟨b⟩).1) : a = b := by
  simp only [xorshift32] at h
  have h1 := shl_xor_inj 5 (by decide) _ _ h
  have h2 := shr_xor_inj _ _ (shl_xor_lt 13 _ ha) (shl_xor_lt 13 _ hb) h1
  exact shl_xor_inj 13 (by decide) _ _ h2

theorem xorshift32_zero : xorshift32 ⟨0⟩ = (0, ⟨0⟩) := by decide

theorem xorshift32_fst_ne_zero (a : Nat) (ha : a < 2 ^ 32) (h0 : a ≠ 0) :
    (xorshift32 ⟨a⟩).1 ≠ 0 := by
  intro h
  apply h0
  apply xorshift32_fst_inj a 0 ha (by decide)
  rw [h, xorshift32_zero]

theorem state_after_lt (n : Nat) : ∀ s : xorshift32_state, s.a < 2 ^ 32 →
    (state_after n s).a < 2 ^ 32 := by
  induction n with
  | zero => intro s h; exact h
  | succ n ih => intro s h; exact ih _ (xorshift32_snd_lt s h)

theorem state_after_ne_zero (n : Nat) : ∀ s : xorshift32_state, s.a < 2 ^ 32 → s.a ≠ 0 →
    (state_after n s).a ≠ 0 := by
  induction n with
  | zero => intro s _ h; exact h
  | succ n ih =>
    intro s h h0
    exact ih _ (xorshift32_snd_lt s h) (xorshift32_fst_ne_zero s.a h h0)

theorem keystream_ne_zero (n : Nat) : ∀ s : xorshift32_state, s.a < 2 ^ 32 → s.a ≠ 0 →
    ∀ k ∈ keystream n s, k ≠ 0 := by
  induction n with
  | zero => intro s _ _ k hk; simp [keystream] at hk
  | succ n ih =>
    intro s h h0 k hk
    simp only [keystream, List.mem_cons] at hk
    rcases hk with hk | hk
    · rw [hk]; exact xorshift32_fst_ne_zero s.a h h0
    · exact ih _ (xorshift32_snd_lt s h) (xorshift32_fst_ne_zero s.a h h0) k hk

theorem keystream_zero (n : Nat) : keystream n ⟨0⟩ = List.replicate n 0 := by
  induction n with
  | zero => rfl
  | succ n ih => simp only [keystream, xorshift32_zero, ih, List.replicate_succ]

theorem state_after_zero (n : Nat) : state_after n ⟨0⟩ = ⟨0⟩ := by
  induction n with
  | zero => rfl
  | succ n ih => simp only [state_after, xorshift32_zero, ih]

/-! ## Words and bytes -/

theorem store32_length (bo : ByteOrder) (w : Nat) : (store32 bo w).length = 4 := by
  cases bo <;> rfl

theorem load32_lt (bo : ByteOrder) (l : List Byte) : load32 bo l < 2 ^ 32 := by
  unfold load32
  split
  · rename_i b0 b1 b2 b3
    have h0 := b0.isLt
    have h1 := b1.isLt
    have h2 := b2.isLt
    have h3 := b3.isLt
    cases bo <;> simp only <;> omega
  · decide

theorem load32_store32 (bo : ByteOrder) (w : Nat) (hw : w < 2 ^ 32) :
    load32 bo (store32 bo w) = w := by
  cases bo <;> simp only [store32, load32, byte_of] <;> norm_num <;> omega

theorem store32_load32 (bo : ByteOrder) (b0 b1 b2 b3 : Byte) :
    store32 bo (load32 bo [b0, b1, b2, b3]) = [b0, b1, b2, b3] := by
  have h0 := b0.isLt
  have h1 := b1.isLt
  have h2 := b2.isLt
  have h3 := b3.isLt
  cases bo <;> simp only [store32, load32, byte_of] <;> norm_num <;>
    refine ⟨?_, ?_, ?_, ?_⟩ <;> apply Fin.ext <;> simp only <;> omega

/-! ## The inner loop -/

theorem xor_words_cons4 (bo : ByteOrder) (b0 b1 b2 b3 : Byte) (rest : List Byte)
    (st : xorshift32_state) :
    xor_words bo (b0 :: b1 :: b2 :: b3 :: rest) st =
      (store32 bo (load32 bo [b0, b1, b2, b3] ^^^ (xorshift32 st).1) ++
        (xor_words bo rest (xorshift32 st).2).1, (xor_words bo rest (xorshift32 st).2).2) := by
  simp only [xor_words]

theorem xor_words_short (bo : ByteOrder) (l : List Byte) (st : xorshift32_state)
    (h : l.length < 4) : xor_words bo l st = (l, st) := by
  match l, h with
  | [], _ => simp only [xor_words]
  | [_], _ => simp only [xor_words]
  | [_, _], _ => simp only [xor_words]
  | [_, _, _], _ => simp only [xor_words]
  | _ :: _ :: _ :: _ :: _, h => simp at h; omega

theorem short_length (l : List Byte)
    (h : ∀ (b0 b1 b2 b3 : Byte) (rest : List Byte), l = b0 :: b1 :: b2 :: b3 :: rest → False) :
    l.length < 4 := by
  match l, h with
  | [], _ => simp
  | [_], _ => simp
  | [_, _], _ => simp
  | [_, _, _], _ => simp
  | b0 :: b1 :: b2 :: b3 :: rest, h => exact (h b0 b1 b2 b3 rest rfl).elim

theorem length_four_mul_succ (l : List Byte) (n : Nat) (h : l.length = 4 * (n + 1)) :
    ∃ b0 b1 b2 b3 rest, l = b0 :: b1 :: b2 :: b3 :: rest ∧ rest.length = 4 * n := by
  match l, h with
  | [], h => simp at h
  | [_], h => simp at h; omega
  | [_, _], h => simp at h; omega
  | [_, _, _], h => simp at h; omega
  | b0 :: b1 :: b2 :: b3 :: rest, h =>
    refine ⟨b0, b1, b2, b3, rest, rfl, ?_⟩
    simp only [List.length_cons] at h
    omega

/-- The index loop over `n` words starting at word `j` rewrites exactly the
`4 * n` bytes that follow the first `4 * j`, as the chunk-wise form does. -/
theorem xor_loop_eq (bo : ByteOrder) (n : Nat) :
    ∀ (j : Nat) (pre body post : List Byte) (st : xorshift32_state),
      pre.length = 4 * j → body.length = 4 * n →
      xor_loop bo n j (pre ++ body ++ post) st =
        (pre ++ (xor_words bo body st).1 ++ post, (xor_words bo body st).2) := by
  induction n with
  | zero =>
    intro j pre body post st _ hb
    have hnil : body = [] := List.length_eq_zero.mp (by simpa using hb)
    subst hnil
    simp only [xor_loop, xor_words]
  | succ n ih =>
    intro j pre body post st hp hb
    obtain ⟨b0, b1, b2, b3, rest, hbody, hrest⟩ := length_four_mul_succ body n hb
    subst hbody
    have hpj : pre.length = j * 4 := by omega
    have hw : xor_word bo (pre ++ b0 :: b1 :: b2 :: b3 :: rest ++ post) j (xorshift32 st).1 =
        (pre ++ store32 bo (load32 bo [b0, b1, b2, b3] ^^^ (xorshift32 st).1)) ++ rest ++ post := by
      have h1 : (pre ++ b0 :: b1 :: b2 :: b3 :: rest ++ post).take (j * 4) = pre := by
        rw [List.append_assoc]
        exact List.take_left' hpj
      have h2 : (pre ++ b0 :: b1 :: b2 :: b3 :: rest ++ post).drop (j * 4) =
          b0 :: b1 :: b2 :: b3 :: (rest ++ post) := by
        rw [List.append_assoc]
        exact List.drop_left' hpj
      have h3 : (pre ++ b0 :: b1 :: b2 :: b3 :: rest ++ post).drop (j * 4 + 4) = rest ++ post := by
        rw [← List.drop_drop, h2]
        rfl
      simp only [xor_word, h1, h2, h3]
      simp
    rw [xor_loop, hw, ih (j + 1) _ rest post _ (by simp [store32_length]; omega) hrest,
      xor_words_cons4]
    simp

theorem xor_words_length (bo : ByteOrder) (l : List Byte) (st : xorshift32_state) :
    (xor_words bo l st).1.length = l.length := by
  induction l, st using xor_words.induct bo with
  | case1 b0 b1 b2 b3 rest st r ih =>
    rw [xor_words_cons4]
    simp only [List.length_append, store32_length, List.length_cons]
    rw [ih]
    omega
  | case2 short st h => rw [xor_words_short bo short st (short_length short h)]

theorem xor_words_state (bo : ByteOrder) (l : List Byte) (st : xorshift32_state) :
    (xor_words bo l st).2 = state_after (l.length / 4) st := by
  induction l, st using xor_words.induct bo with
  | case1 b0 b1 b2 b3 rest st r ih =>
    rw [xor_words_cons4]
    simp only [List.length_cons]
    have hlen : (rest.length + 1 + 1 + 1 + 1) / 4 = rest.length / 4 + 1 := by omega
    rw [hlen, state_after]
    exact ih
  | case2 short st h =>
    have hs := short_length short h
    rw [xor_words_short bo short st hs]
    have hz : short.length / 4 = 0 := by omega
    rw [hz]
    rfl

theorem xor_words_append (bo : ByteOrder) (n : Nat) :
    ∀ (l1 l2 : List Byte) (st : xorshift32_state), l1.length = 4 * n →
      xor_words bo (l1 ++ l2) st =
        ((xor_words bo l1 st).1 ++ (xor_words bo l2 (xor_words bo l1 st).2).1,
          (xor_words bo l2 (xor_words bo l1 st).2).2) := by
  induction n with
  | zero =>
    intro l1 l2 st h
    have hnil : l1 = [] := List.length_eq_zero.mp (by simpa using h)
    subst hnil
    simp [xor_words]
  | succ n ih =>
    intro l1 l2 st h
    obtain ⟨b0, b1, b2, b3, rest, hl, hrest⟩ := length_four_mul_succ l1 n h
    subst hl
    simp only [List.cons_append, xor_words_cons4]
    rw [ih rest l2 _ hrest]
    simp

theorem xor_words_involutive (bo : ByteOrder) (l : List Byte) (st : xorshift32_state)
    (hst : st.a < 2 ^ 32) : (xor_words bo (xor_words bo l st).1 st).1 = l := by
  induction l, st using xor_words.induct bo with
  | case1 b0 b1 b2 b3 rest st r ih =>
    have hk : (xorshift32 st).1 < 2 ^ 32 := xorshift32_fst_lt st.a hst
    have hv : load32 bo [b0, b1, b2, b3] ^^^ (xorshift32 st).1 < 2 ^ 32 :=
      Nat.xor_lt_two_pow (load32_lt bo _) hk
    rw [xor_words_cons4]
    simp only
    have hsplit : ∀ v t, store32 bo v ++ t =
        (store32 bo v)[0]! :: (store32 bo v)[1]! :: (store32 bo v)[2]! :: (store32 bo v)[3]! :: t := by
      intro v t
      cases bo <;> rfl
    rw [hsplit, xor_words_cons4]
    simp only
    have hback : [(store32 bo (load32 bo [b0, b1, b2, b3] ^^^ (xorshift32 st).1))[0]!,
        (store32 bo (load32 bo [b0, b1, b2, b3] ^^^ (xorshift32 st).1))[1]!,
        (store32 bo (load32 bo [b0, b1, b2, b3] ^^^ (xorshift32 st).1))[2]!,
        (store32 bo (load32 bo [b0, b1, b2, b3] ^^^ (xorshift32 st).1))[3]!] =
        store32 bo (load32 bo [b0, b1, b2, b3] ^^^ (xorshift32 st).1) := by
      cases bo <;> rfl
    rw [hback, load32_store32 bo _ hv, Nat.xor_assoc, Nat.xor_self, Nat.xor_zero,
      store32_load32, ih (xorshift32_snd_lt st hst)]
    rfl
  | case2 short st h =>
    have hs := short_length short h
    rw [xor_words_short bo short st hs, xor_words_short bo short st hs]

theorem xor_words_zero (bo : ByteOrder) (l : List Byte) (st : xorshift32_state)
    (hst : st = ⟨0⟩) : xor_words bo l st = (l, ⟨0⟩) := by
  induction l, st using xor_words.induct bo with
  | case1 b0 b1 b2 b3 rest st r ih =>
    subst hst
    rw [xor_words_cons4, xorshift32_zero]
    simp only [Nat.xor_zero, store32_load32]
    have hrec : xor_words bo rest ⟨0⟩ = (rest, ⟨0⟩) := by
      have h0 := ih (by simp only [r, xorshift32_zero])
      simpa only [r, xorshift32_zero] using h0
    rw [hrec]
    rfl
  | case2 short st h => rw [xor_words_short bo short st (short_length short h), hst]

/-- Word `n` of the transformed bytes is word `n` of the input xored with the
word drawn after `n` earlier draws. -/
theorem word_at_xor_words (bo : ByteOrder) (l : List Byte) (st : xorshift32_state) :
    ∀ n, st.a < 2 ^ 32 → 4 * n + 4 ≤ l.length →
      word_at bo (xor_words bo l st).1 n =
        word_at bo l n ^^^ (xorshift32 (state_after n st)).1 := by
  induction l, st using xor_words.induct bo with
  | case1 b0 b1 b2 b3 rest st r ih =>
    intro n hst hn
    have hk : (xorshift32 st).1 < 2 ^ 32 := xorshift32_fst_lt st.a hst
    have hv : load32 bo [b0, b1, b2, b3] ^^^ (xorshift32 st).1 < 2 ^ 32 :=
      Nat.xor_lt_two_pow (load32_lt bo _) hk
    rw [xor_words_cons4]
    cases n with
    | zero =>
      simp only [word_at, Nat.mul_zero, List.drop_zero, state_after]
      rw [List.take_left' (store32_length bo _), load32_store32 bo _ hv]
      rfl
    | succ m =>
      have h4 : 4 * (m + 1) = 4 + 4 * m := by omega
      simp only [word_at, h4]
      rw [← List.drop_drop, List.drop_left' (store32_length bo _)]
      have hrest : List.drop 4 (b0 :: b1 :: b2 :: b3 :: rest) = rest := rfl
      rw [← List.drop_drop (4 * m) 4 (b0 :: b1 :: b2 :: b3 :: rest), hrest]
      simp only [List.length_cons] at hn
      exact ih m (xorshift32_snd_lt st hst) (by omega)
  | case2 short st h =>
    intro n _ hn
    have hs := short_length short h
    omega

theorem transform_buffer_eq (bo : ByteOrder) (seed : Int) (buf : List Byte)
    (h : buf.length % 4 = 0) :
    transform_buffer bo seed buf = (xor_words bo buf (state_of_seed seed)).1 := by
  have hlen : buf.length = 4 * (buf.length / 4) := by omega
  have hloop := xor_loop_eq bo (buf.length / 4) 0 [] buf [] (state_of_seed seed) rfl hlen
  simp only [List.nil_append, List.append_nil] at hloop
  simp only [transform_buffer, hloop]

theorem state_of_seed_lt (seed : Int) : (state_of_seed seed).a < 2 ^ 32 := by
  simp only [state_of_seed]
  have h1 : (0 : Int) ≤ seed % 2 ^ 32 := Int.emod_nonneg _ (by norm_num)
  have h2 : seed % 2 ^ 32 < 2 ^ 32 := Int.emod_lt_of_pos _ (by norm_num)
  omega

theorem transform_buffer_length (bo : ByteOrder) (seed : Int) (buf : List Byte)
    (h : buf.length % 4 = 0) : (transform_buffer bo seed buf).length = buf.length := by
  rw [transform_buffer_eq bo seed buf h, xor_words_length]

theorem transform_buffer_involutive (bo : ByteOrder) (seed : Int) (buf : List Byte)
    (h : buf.length % 4 = 0) :
    transform_buffer bo seed (transform_buffer bo seed buf) = buf := by
  have hlen := transform_buffer_length bo seed buf h
  rw [transform_buffer_eq bo seed _ (by rw [hlen]; exact h), transform_buffer_eq bo seed buf h]
  exact xor_words_involutive bo buf _ (state_of_seed_lt seed)

theorem spec_step_eq (a : Nat) (ha : a < 2 ^ 32) : (xorshift32 ⟨a⟩).1 = spec_step a := by
  simp only [xorshift32, spec_step]
  have h17 : ∀ y, y < 2 ^ 32 → (y >>> 17) % 2 ^ 32 = y >>> 17 := by
    intro y hy
    apply Nat.mod_eq_of_lt
    rw [Nat.shiftRight_eq_div_pow]
    exact lt_of_le_of_lt (Nat.div_le_self _ _) hy
  rw [h17 _ (shl_xor_lt 13 a ha)]

theorem state_after_eq_iterate (n : Nat) : ∀ a, a < 2 ^ 32 →
    (state_after n ⟨a⟩).a = spec_step^[n] a := by
  induction n with
  | zero => intro a _; rfl
  | succ n ih =>
    intro a ha
    rw [state_after, xorshift32_snd, ih _ (xorshift32_fst_lt a ha), spec_step_eq a ha,
      Function.iterate_succ_apply]

theorem draw_eq_iterate (n a : Nat) (ha : a < 2 ^ 32) :
    (xorshift32 (state_after n ⟨a⟩)).1 = spec_step^[n + 1] a := by
  have hlt := state_after_lt n ⟨a⟩ ha
  have hst : state_after n ⟨a⟩ = ⟨(state_after n ⟨a⟩).a⟩ := rfl
  rw [hst, spec_step_eq _ hlt, state_after_eq_iterate n a ha, Function.iterate_succ_apply']

/-! ## I/O calls -/

theorem next_outcome_fs (w : World) : (next_outcome w).2.fs = w.fs := by
  unfold next_outcome
  split <;> rfl

theorem next_outcome_blocks (w : World) : (next_outcome w).2.blocks = w.blocks := by
  unfold next_outcome
  split <;> rfl

theorem next_outcome_ok (w : World) (h : NoFaults w) :
    (next_outcome w).1 = Outcome.ok ∧ NoFaults (next_outcome w).2 := by
  unfold next_outcome
  split
  · exact ⟨rfl, h⟩
  · rename_i o rest hf
    refine ⟨h o (by rw [hf]; exact List.mem_cons_self _ _), ?_⟩
    intro x hx
    exact h x (by rw [hf]; exact List.mem_cons_of_mem _ hx)

theorem fopen_frame (p : String) (m : Mode) (w : World) (q : String) (h : q ≠ p) :
    (fopen p m w).2.fs q = w.fs q := by
  have hfs := next_outcome_fs w
  rcases ho : (next_outcome w).1 with _ | n <;> cases m <;>
    simp only [fopen, ho, hfs, Function.update_noteq h] <;> split <;> simp only [hfs]

theorem fopen_read_fs (p : String) (m : Mode) (w : World) (hm : m ≠ Mode.wb) :
    (fopen p m w).2.fs = w.fs := by
  have hfs := next_outcome_fs w
  rcases ho : (next_outcome w).1 with _ | n <;> cases m <;>
    first
    | exact (hm rfl).elim
    | (simp only [fopen, ho, hfs]; done)
    | (simp only [fopen, ho, hfs]; split <;> simp only [hfs])

theorem fopen_some (p : String) (m : Mode) (w : World) (f : FILE)
    (h : (fopen p m w).1 = some f) : f = ⟨p, 0⟩ := by
  rcases ho : (next_outcome w).1 with _ | n <;> cases m <;>
    simp only [fopen, ho] at h <;>
    first
    | exact (Option.some.inj h).symm
    | cases h
    | (split at h
       · exact (Option.some.inj h).symm
       · cases h)

theorem fopen_missing (p : String) (m : Mode) (w : World) (hm : m ≠ Mode.wb)
    (hc : w.fs p = none) : (fopen p m w).1 = none := by
  have hfs := next_outcome_fs w
  rcases ho : (next_outcome w).1 with _ | n <;> cases m <;>
    first
    | exact (hm rfl).elim
    | simp [fopen, ho, hfs, hc]

theorem fopen_ok_read (p : String) (m : Mode) (w : World) (c : List Byte) (hm : m ≠ Mode.wb)
    (hw : NoFaults w) (hc : w.fs p = some c) :
    (fopen p m w).1 = some ⟨p, 0⟩ ∧ NoFaults (fopen p m w).2 := by
  obtain ⟨h1, h2⟩ := next_outcome_ok w hw
  have hfs := next_outcome_fs w
  cases m <;>
    first
    | exact (hm rfl).elim
    | (simp only [fopen, h1, hfs, hc, Option.isSome_some, if_true]; exact ⟨trivial, h2⟩)

theorem fopen_ok_wb (p : String) (w : World) (hw : NoFaults w) :
    (fopen p Mode.wb w).1 = some ⟨p, 0⟩ ∧
      (fopen p Mode.wb w).2.fs = Function.update w.fs p (some []) ∧
      NoFaults (fopen p Mode.wb w).2 := by
  obtain ⟨h1, h2⟩ := next_outcome_ok w hw
  have hfs := next_outcome_fs w
  simp only [fopen, h1, hfs]
  exact ⟨trivial, trivial, h2⟩

theorem fread_fs (f : FILE) (w : World) : (fread f w).2.2.fs = w.fs := by
  simp only [fread, next_outcome_fs]

theorem fread_path (f : FILE) (w : World) : (fread f w).2.1.path = f.path := rfl

theorem fread_ok (f : FILE) (w : World) (c : List Byte) (hw : NoFaults w)
    (hc : w.fs f.path = some c) (hlen : f.pos + SINGLE_BLOCK_SIZE ≤ c.length) :
    (fread f w).1 = 1 ∧ (fread f w).2.1 = ⟨f.path, f.pos + SINGLE_BLOCK_SIZE⟩ ∧
      (fread f w).2.2.blocks.take SINGLE_BLOCK_SIZE = (c.drop f.pos).take SINGLE_BLOCK_SIZE ∧
      NoFaults (fread f w).2.2 := by
  obtain ⟨h1, h2⟩ := next_outcome_ok w hw
  have hl : ((c.drop f.pos).take SINGLE_BLOCK_SIZE).length = SINGLE_BLOCK_SIZE := by
    rw [List.length_take, List.length_drop]
    omega
  simp only [fread, h1, next_outcome_fs, hc, Option.getD_some, hl, and_self, if_true]
  refine ⟨trivial, trivial, ?_, h2⟩
  exact List.take_left' hl

theorem fread_short (f : FILE) (w : World) (c : List Byte) (hc : w.fs f.path = some c)
    (hlen : c.length < f.pos + SINGLE_BLOCK_SIZE) : (fread f w).1 = 0 := by
  have hbs : 0 < SINGLE_BLOCK_SIZE := by decide
  have hl0 : ((c.drop f.pos).take SINGLE_BLOCK_SIZE).length ≠ SINGLE_BLOCK_SIZE := by
    simp only [List.length_take, List.length_drop]
    omega
  simp only [fread, next_outcome_fs, hc, Option.getD_some]
  split
  · rename_i h
    rcases h with ⟨h1, h2⟩
    rw [h1] at h2
    exact (hl0 h2).elim
  · rfl

theorem fwrite_frame (f : FILE) (w : World) (q : String) (h : q ≠ f.path) :
    (fwrite f w).2.2.fs q = w.fs q := by
  simp only [fwrite, Function.update_noteq h]
  exact congrFun (next_outcome_fs w) q

theorem fwrite_path (f : FILE) (w : World) : (fwrite f w).2.1.path = f.path := rfl

theorem fwrite_ok (f : FILE) (w : World) (d : List Byte) (hw : NoFaults w)
    (hd : w.fs f.path = some d) :
    (fwrite f w).1 = 1 ∧
      (fwrite f w).2.1 = ⟨f.path, f.pos + (w.blocks.take SINGLE_BLOCK_SIZE).length⟩ ∧
      (fwrite f w).2.2.fs =
        Function.update w.fs f.path (some (write_at d f.pos (w.blocks.take SINGLE_BLOCK_SIZE))) ∧
      NoFaults (fwrite f w).2.2 := by
  obtain ⟨h1, h2⟩ := next_outcome_ok w hw
  simp only [fwrite, h1, next_outcome_fs, next_outcome_blocks, hd, Option.getD_some, if_true]
  exact ⟨trivial, trivial, trivial, h2⟩

/-! ## Writing blocks into a file -/

theorem write_at_eq (d : List Byte) (p : Nat) (x : List Byte) (hp : p ≤ d.length) :
    write_at d p x = d.take p ++ x ++ d.drop (p + x.length) := by
  have h0 : p - d.length = 0 := by omega
  simp only [write_at, h0, List.replicate_zero, List.append_nil]

theorem write_at_length (d : List Byte) (p : Nat) (x : List Byte) (hp : p ≤ d.length) :
    p + x.length ≤ (write_at d p x).length := by
  rw [write_at_eq d p x hp]
  simp only [List.length_append, List.length_take, List.length_drop]
  omega

theorem write_at_nil (d : List Byte) (p : Nat) (hp : p ≤ d.length) : write_at d p [] = d := by
  rw [write_at_eq d p [] hp]
  simp

theorem write_at_write_at (d : List Byte) (p : Nat) (x y : List Byte) (hp : p ≤ d.length) :
    write_at (write_at d p x) (p + x.length) y = write_at d p (x ++ y) := by
  have hlen := write_at_length d p x hp
  rw [write_at_eq _ _ y hlen, write_at_eq d p x hp, write_at_eq d p (x ++ y) hp]
  have htl : (d.take p ++ x).length = p + x.length := by
    simp only [List.length_append, List.length_take]
    omega
  have h1 : (d.take p ++ x ++ d.drop (p + x.length)).take (p + x.length) = d.take p ++ x :=
    List.take_left' htl
  have h2 : (d.take p ++ x ++ d.drop (p + x.length)).drop (p + x.length + y.length) =
      d.drop (p + (x ++ y).length) := by
    rw [← List.drop_drop, List.drop_left' htl, List.drop_drop, List.length_append]
    congr 1
    omega
  rw [h1, h2]
  simp only [List.append_assoc]

theorem take_block_append (c : List Byte) (p a b : Nat) :
    (c.drop p).take a ++ (c.drop (p + a)).take b = (c.drop p).take (a + b) := by
  rw [List.take_add, List.drop_drop]

theorem take_block_length (c : List Byte) (p a : Nat) (h : p + a ≤ c.length) :
    ((c.drop p).take a).length = a := by
  rw [List.length_take, List.length_drop]
  omega

theorem write_at_self (c : List Byte) (p a : Nat) (h : p + a ≤ c.length) :
    write_at c p ((c.drop p).take a) = c := by
  rw [write_at_eq c p _ (by omega), take_block_length c p a h, List.append_assoc,
    ← List.drop_drop, List.take_append_drop, List.take_append_drop]

/-- After a block read from `inp` at `p` is written to `out` at `p`, the file
`inp` still holds `c`: either it is another file, or the same bytes were
written over themselves. -/
theorem source_kept (inp out : String) (c d : List Byte) (p : Nat) (w w1 : World)
    (hio : inp = out → c = d) (hc : w.fs inp = some c)
    (hp : p + SINGLE_BLOCK_SIZE ≤ c.length)
    (hfs1 : w1.fs = Function.update w.fs out
      (some (write_at d p ((c.drop p).take SINGLE_BLOCK_SIZE)))) :
    w1.fs inp = some c ∧
      (inp = out → c = write_at d p ((c.drop p).take SINGLE_BLOCK_SIZE)) := by
  by_cases h : inp = out
  · have hcd := hio h
    subst hcd
    have hself := write_at_self c p SINGLE_BLOCK_SIZE hp
    refine ⟨?_, fun _ => hself.symm⟩
    rw [hfs1, h, Function.update_same, hself]
  · refine ⟨?_, fun h2 => (h h2).elim⟩
    rw [hfs1, Function.update_noteq h]
    exact hc

/-! ## The copier -/

/-- One full iteration of the copy loop when a whole block is left to read
and no I/O error is pending. -/
theorem write_loop_step (inp out : String) (c d : List Byte) (n p : Nat) (w : World)
    (hw : NoFaults w) (hc : w.fs inp = some c) (hd : w.fs out = some d)
    (hp : p + SINGLE_BLOCK_SIZE ≤ c.length) :
    ∃ w1, NoFaults w1 ∧
      w1.fs = Function.update w.fs out
        (some (write_at d p ((c.drop p).take SINGLE_BLOCK_SIZE))) ∧
      write_loop (n + 1) ⟨inp, p⟩ ⟨out, p⟩ w =
        write_loop n ⟨inp, p + SINGLE_BLOCK_SIZE⟩ ⟨out, p + SINGLE_BLOCK_SIZE⟩ w1 := by
  obtain ⟨r1, r2, r3, r4⟩ := fread_ok ⟨inp, p⟩ w c hw hc hp
  have rfs := fread_fs ⟨inp, p⟩ w
  have hd1 : (fread ⟨inp, p⟩ w).2.2.fs out = some d := by rw [rfs]; exact hd
  obtain ⟨s1, s2, s3, s4⟩ := fwrite_ok ⟨out, p⟩ (fread ⟨inp, p⟩ w).2.2 d r4 hd1
  have hblk := take_block_length c p SINGLE_BLOCK_SIZE hp
  simp only at r2 s2 s3
  rw [r3] at s2 s3
  rw [hblk] at s2
  rw [rfs] at s3
  refine ⟨(fwrite ⟨out, p⟩ (fread ⟨inp, p⟩ w).2.2).2.2, s4, s3, ?_⟩
  rw [write_loop]
  simp only [r1, s1, r2, s2, ne_eq, not_true_eq_false, if_false]

/-- Copying `n` blocks when the source holds them all: the loop ends with
`ret = 0`, both streams `n` blocks further, and the destination overwritten
by those blocks from the start position on. -/
theorem write_loop_ok (inp out : String) (c : List Byte) (n : Nat) :
    ∀ (p : Nat) (d : List Byte) (w : World), (inp = out → c = d) → NoFaults w →
      w.fs inp = some c →
      w.fs out = some d → p ≤ d.length → p + n * SINGLE_BLOCK_SIZE ≤ c.length →
      (write_loop n ⟨inp, p⟩ ⟨out, p⟩ w).1 = 0 ∧
      (write_loop n ⟨inp, p⟩ ⟨out, p⟩ w).2.1 = ⟨inp, p + n * SINGLE_BLOCK_SIZE⟩ ∧
      (write_loop n ⟨inp, p⟩ ⟨out, p⟩ w).2.2.1 = ⟨out, p + n * SINGLE_BLOCK_SIZE⟩ ∧
      NoFaults (write_loop n ⟨inp, p⟩ ⟨out, p⟩ w).2.2.2 ∧
      (write_loop n ⟨inp, p⟩ ⟨out, p⟩ w).2.2.2.fs = Function.update w.fs out
        (some (write_at d p ((c.drop p).take (n * SINGLE_BLOCK_SIZE)))) := by
  induction n with
  | zero =>
    intro p d w _ hw _ hd hp _
    simp only [write_loop, Nat.zero_mul, Nat.add_zero, List.take_zero, write_at_nil d p hp]
    refine ⟨trivial, trivial, trivial, hw, ?_⟩
    rw [← hd, Function.update_eq_self]
  | succ n ih =>
    intro p d w hio hw hc hd hp hlen
    have hsucc : (n + 1) * SINGLE_BLOCK_SIZE = SINGLE_BLOCK_SIZE + n * SINGLE_BLOCK_SIZE := by
      rw [Nat.succ_mul, Nat.add_comm]
    have hp1 : p + SINGLE_BLOCK_SIZE ≤ c.length := by omega
    obtain ⟨w1, hw1, hfs1, hstep⟩ := write_loop_step inp out c d n p w hw hc hd hp1
    have hblk := take_block_length c p SINGLE_BLOCK_SIZE hp1
    obtain ⟨hc1, hio1⟩ := source_kept inp out c d p w w1 hio hc hp1 hfs1
    have hd1 : w1.fs out = some (write_at d p ((c.drop p).take SINGLE_BLOCK_SIZE)) := by
      rw [hfs1, Function.update_same]
    have hlen1 := write_at_length d p ((c.drop p).take SINGLE_BLOCK_SIZE) hp
    rw [hblk] at hlen1
    obtain ⟨i1, i2, i3, i4, i5⟩ := ih (p + SINGLE_BLOCK_SIZE) _ w1 hio1 hw1 hc1 hd1 hlen1
      (by omega)
    rw [hstep]
    refine ⟨i1, ?_, ?_, i4, ?_⟩
    · rw [i2, hsucc, Nat.add_assoc]
    · rw [i3, hsucc, Nat.add_assoc]
    · rw [i5, hfs1, Function.update_idem]
      have hww := write_at_write_at d p ((c.drop p).take SINGLE_BLOCK_SIZE)
        ((c.drop (p + SINGLE_BLOCK_SIZE)).take (n * SINGLE_BLOCK_SIZE)) hp
      rw [hblk] at hww
      rw [hww, take_block_append, hsucc]

/-- Copying stops with `ret = -1` at the first block the source cannot fill:
exactly the `m` complete blocks before it have been written. -/
theorem write_loop_short (inp out : String) (c : List Byte) (m : Nat) :
    ∀ (n p : Nat) (d : List Byte) (w : World), (inp = out → c = d) → NoFaults w →
      w.fs inp = some c → w.fs out = some d → p ≤ d.length → m < n → p + m * SINGLE_BLOCK_SIZE ≤ c.length →
      c.length < p + (m + 1) * SINGLE_BLOCK_SIZE →
      (write_loop n ⟨inp, p⟩ ⟨out, p⟩ w).1 = -1 ∧
      (write_loop n ⟨inp, p⟩ ⟨out, p⟩ w).2.2.1 = ⟨out, p + m * SINGLE_BLOCK_SIZE⟩ ∧
      (write_loop n ⟨inp, p⟩ ⟨out, p⟩ w).2.2.2.fs = Function.update w.fs out
        (some (write_at d p ((c.drop p).take (m * SINGLE_BLOCK_SIZE)))) := by
  induction m with
  | zero =>
    intro n p d w _ _ hc hd hp hmn _ hshort
    obtain ⟨k, rfl⟩ : ∃ k, n = k + 1 := ⟨n - 1, by omega⟩
    have hr : (fread ⟨inp, p⟩ w).1 = 0 :=
      fread_short ⟨inp, p⟩ w c hc (by simpa using hshort)
    rw [write_loop]
    have h01 : ¬ ((0 : Nat) = 1) := by decide
    simp only [hr, ne_eq, h01, not_false_eq_true, if_true, Nat.zero_mul,
      Nat.add_zero, List.take_zero, write_at_nil d p hp, fread_fs]
    refine ⟨trivial, trivial, ?_⟩
    rw [← hd, Function.update_eq_self]
  | succ m ih =>
    intro n p d w hio hw hc hd hp hmn hlen hshort
    obtain ⟨k, rfl⟩ : ∃ k, n = k + 1 := ⟨n - 1, by omega⟩
    have hsucc : (m + 1) * SINGLE_BLOCK_SIZE = SINGLE_BLOCK_SIZE + m * SINGLE_BLOCK_SIZE := by
      rw [Nat.succ_mul, Nat.add_comm]
    have hsucc2 : (m + 1 + 1) * SINGLE_BLOCK_SIZE =
        SINGLE_BLOCK_SIZE + (m + 1) * SINGLE_BLOCK_SIZE := by
      rw [Nat.succ_mul, Nat.add_comm]
    have hp1 : p + SINGLE_BLOCK_SIZE ≤ c.length := by omega
    obtain ⟨w1, hw1, hfs1, hstep⟩ := write_loop_step inp out c d k p w hw hc hd hp1
    have hblk := take_block_length c p SINGLE_BLOCK_SIZE hp1
    obtain ⟨hc1, hio1⟩ := source_kept inp out c d p w w1 hio hc hp1 hfs1
    have hd1 : w1.fs out = some (write_at d p ((c.drop p).take SINGLE_BLOCK_SIZE)) := by
      rw [hfs1, Function.update_same]
    have hlen1 := write_at_length d p ((c.drop p).take SINGLE_BLOCK_SIZE) hp
    rw [hblk] at hlen1
    obtain ⟨i1, i3, i5⟩ := ih k (p + SINGLE_BLOCK_SIZE) _ w1 hio1 hw1 hc1 hd1 hlen1 (by omega)
      (by omega) (by omega)
    rw [hstep]
    refine ⟨i1, ?_, ?_⟩
    · rw [i3, hsucc, Nat.add_assoc]
    · rw [i5, hfs1, Function.update_idem]
      have hww := write_at_write_at d p ((c.drop p).take SINGLE_BLOCK_SIZE)
        ((c.drop (p + SINGLE_BLOCK_SIZE)).take (m * SINGLE_BLOCK_SIZE)) hp
      rw [hblk] at hww
      rw [hww, take_block_append, hsucc]

/-- The copy loop changes no file but the one the output stream is bound to,
whatever I/O errors occur. -/
theorem write_loop_frame (n : Nat) : ∀ (fin fout : FILE) (w : World) (q : String),
    q ≠ fout.path → (write_loop n fin fout w).2.2.2.fs q = w.fs q := by
  induction n with
  | zero => intro fin fout w q _; rfl
  | succ n ih =>
    intro fin fout w q hq
    rw [write_loop]
    simp only
    split
    · exact congrFun (fread_fs fin w) q
    · split
      · rw [fwrite_frame fout _ q hq]
        exact congrFun (fread_fs fin w) q
      · rw [ih _ _ _ q (by rw [fwrite_path]; exact hq), fwrite_frame fout _ q hq]
        exact congrFun (fread_fs fin w) q

theorem write_at_zero (d x : List Byte) : write_at d 0 x = x ++ d.drop x.length := by
  rw [write_at_eq d 0 x (Nat.zero_le _)]
  simp

/-- A call of `write_file` with the source holding all the blocks asked for. -/
theorem write_file_ok (inp out : String) (numblocks : Int) (c d : List Byte) (w : World)
    (hw : NoFaults w) (hc : w.fs inp = some c) (hd : w.fs out = some d)
    (hlen : numblocks.toNat * SINGLE_BLOCK_SIZE ≤ c.length) :
    (write_file inp out numblocks w).1 = 0 ∧ NoFaults (write_file inp out numblocks w).2 ∧
      (write_file inp out numblocks w).2.fs = Function.update w.fs out
        (some (c.take (numblocks.toNat * SINGLE_BLOCK_SIZE) ++
          d.drop (numblocks.toNat * SINGLE_BLOCK_SIZE))) := by
  obtain ⟨a1, a2⟩ := fopen_ok_read inp Mode.rb w c (by decide) hw hc
  have afs := fopen_read_fs inp Mode.rb w (by decide)
  have hd1 : (fopen inp Mode.rb w).2.fs out = some d := by rw [afs]; exact hd
  obtain ⟨b1, b2⟩ := fopen_ok_read out Mode.rb_plus _ d (by decide) a2 hd1
  have bfs := fopen_read_fs out Mode.rb_plus (fopen inp Mode.rb w).2 (by decide)
  have hc2 : (fopen out Mode.rb_plus (fopen inp Mode.rb w).2).2.fs inp = some c := by
    rw [bfs, afs]; exact hc
  have hd2 : (fopen out Mode.rb_plus (fopen inp Mode.rb w).2).2.fs out = some d := by
    rw [bfs]; exact hd1
  have hio : inp = out → c = d := by
    intro h
    rw [h, hd] at hc
    exact (Option.some.inj hc).symm
  obtain ⟨i1, _, _, i4, i5⟩ := write_loop_ok inp out c numblocks.toNat 0 d _ hio b2 hc2 hd2
    (Nat.zero_le _) (by omega)
  have hk : ((c.take (numblocks.toNat * SINGLE_BLOCK_SIZE)).length) =
      numblocks.toNat * SINGLE_BLOCK_SIZE := by
    rw [List.length_take]; omega
  simp only [write_file, a1, b1]
  refine ⟨i1, i4, ?_⟩
  rw [i5, bfs, afs, List.drop_zero, write_at_zero, hk]

/-- A call of `write_file` on a source with only `m` complete blocks, fewer
than asked for. -/
theorem write_file_short (inp out : String) (numblocks : Int) (m : Nat) (c d : List Byte)
    (w : World) (hw : NoFaults w) (hc : w.fs inp = some c)
    (hd : w.fs out = some d) (hm : m < numblocks.toNat)
    (hlen : m * SINGLE_BLOCK_SIZE ≤ c.length) (hshort : c.length < (m + 1) * SINGLE_BLOCK_SIZE) :
    (write_file inp out numblocks w).1 = -1 ∧
      (write_file inp out numblocks w).2.fs = Function.update w.fs out
        (some (c.take (m * SINGLE_BLOCK_SIZE) ++ d.drop (m * SINGLE_BLOCK_SIZE))) := by
  obtain ⟨a1, a2⟩ := fopen_ok_read inp Mode.rb w c (by decide) hw hc
  have afs := fopen_read_fs inp Mode.rb w (by decide)
  have hd1 : (fopen inp Mode.rb w).2.fs out = some d := by rw [afs]; exact hd
  obtain ⟨b1, b2⟩ := fopen_ok_read out Mode.rb_plus _ d (by decide) a2 hd1
  have bfs := fopen_read_fs out Mode.rb_plus (fopen inp Mode.rb w).2 (by decide)
  have hc2 : (fopen out Mode.rb_plus (fopen inp Mode.rb w).2).2.fs inp = some c := by
    rw [bfs, afs]; exact hc
  have hd2 : (fopen out Mode.rb_plus (fopen inp Mode.rb w).2).2.fs out = some d := by
    rw [bfs]; exact hd1
  have hio : inp = out → c = d := by
    intro h
    rw [h, hd] at hc
    exact (Option.some.inj hc).symm
  obtain ⟨i1, _, i5⟩ := write_loop_short inp out c m numblocks.toNat 0 d _ hio b2 hc2 hd2
    (Nat.zero_le _) hm (by omega) (by omega)
  have hk : ((c.take (m * SINGLE_BLOCK_SIZE)).length) = m * SINGLE_BLOCK_SIZE := by
    rw [List.length_take]; omega
  simp only [write_file, a1, b1]
  refine ⟨i1, ?_⟩
  rw [i5, bfs, afs, List.drop_zero, write_at_zero, hk]

/-- Whatever happens, `write_file` changes no file but its destination. -/
theorem write_file_frame (inp out : String) (numblocks : Int) (w : World) (q : String)
    (hq : q ≠ out) : (write_file inp out numblocks w).2.fs q = w.fs q := by
  have afs := fopen_read_fs inp Mode.rb w (by decide)
  have bfs := fopen_read_fs out Mode.rb_plus (fopen inp Mode.rb w).2 (by decide)
  unfold write_file
  simp only
  split
  · rename_i fin fout _ hb
    have hf := fopen_some _ _ _ _ hb
    rw [write_loop_frame _ _ _ _ q (by rw [hf]; exact hq), bfs, afs]
  · rw [bfs, afs]

/-- A missing source or destination makes `write_file` fail. -/
theorem write_file_missing (inp out : String) (numblocks : Int) (w : World)
    (h : w.fs inp = none ∨ w.fs out = none) : (write_file inp out numblocks w).1 = -1 := by
  have afs := fopen_read_fs inp Mode.rb w (by decide)
  unfold write_file
  simp only
  split
  · rename_i fin fout ha hb
    rcases h with h | h
    · rw [fopen_missing inp Mode.rb w (by decide) h] at ha
      cases ha
    · rw [fopen_missing out Mode.rb_plus _ (by decide) (by rw [afs]; exact h)] at hb
      cases hb
  · rfl

/-- A call of `fread` that returns 1 has read a whole block: the file holds
one at the stream position, and the position moves past it. -/
theorem fread_one (f : FILE) (w : World) (c : List Byte) (hc : w.fs f.path = some c)
    (h : (fread f w).1 = 1) :
    (fread f w).2.1.pos = f.pos + SINGLE_BLOCK_SIZE ∧ f.pos + SINGLE_BLOCK_SIZE ≤ c.length := by
  have hbs : 0 < SINGLE_BLOCK_SIZE := by decide
  simp only [fread, next_outcome_fs, hc, Option.getD_some] at h ⊢
  split at h
  · rename_i hcond
    obtain ⟨hok, hlen⟩ := hcond
    rw [hok] at hlen ⊢
    simp only at hlen ⊢
    refine ⟨by rw [hlen], ?_⟩
    rw [List.length_take, List.length_drop] at hlen
    omega
  · cases h

/-- A call of `fread` that returns 1 leaves the block it read at the start
of the buffer. -/
theorem fread_one_blocks (f : FILE) (w : World) (c : List Byte) (hc : w.fs f.path = some c)
    (h : (fread f w).1 = 1) :
    (fread f w).2.2.blocks.take SINGLE_BLOCK_SIZE = (c.drop f.pos).take SINGLE_BLOCK_SIZE := by
  simp only [fread, next_outcome_fs, hc, Option.getD_some] at h ⊢
  split at h
  · rename_i hcond
    obtain ⟨hok, hlen⟩ := hcond
    rw [hok] at hlen ⊢
    simp only at hlen ⊢
    exact List.take_left' hlen
  · cases h

/-- Whatever its outcome, `fwrite` puts a leading part of the buffer's first
block at the stream position and changes nothing else. -/
theorem fwrite_any (f : FILE) (w : World) :
    ∃ m, (fwrite f w).2.2.fs = Function.update w.fs f.path
      (some (write_at ((w.fs f.path).getD []) f.pos
        ((w.blocks.take SINGLE_BLOCK_SIZE).take m))) := by
  rcases ho : (next_outcome w).1 with _ | n
  · refine ⟨SINGLE_BLOCK_SIZE, ?_⟩
    simp only [fwrite, ho, next_outcome_fs, next_outcome_blocks, List.take_take, Nat.min_self]
  · refine ⟨n, ?_⟩
    simp only [fwrite, ho, next_outcome_fs, next_outcome_blocks]

/-- A call of `fwrite` that returns 1 has moved the stream past the block. -/
theorem fwrite_one (f : FILE) (w : World) (h : (fwrite f w).1 = 1) :
    (fwrite f w).2.1 = ⟨f.path, f.pos + (w.blocks.take SINGLE_BLOCK_SIZE).length⟩ := by
  rcases ho : (next_outcome w).1 with _ | n
  · simp only [fwrite, ho, next_outcome_blocks]
  · simp [fwrite, ho] at h

/-- However the I/O calls turn out, the copy loop leaves the source file as
it was, also when source and destination are one file read and written at
the same position; and it ends with `ret = -1` when the source is too short
for the blocks still to be copied. -/
theorem write_loop_source (c : List Byte) (n : Nat) : ∀ (fin fout : FILE) (w : World),
    (fin.path = fout.path → fin.pos = fout.pos) → w.fs fin.path = some c →
    (write_loop n fin fout w).2.2.2.fs fin.path = some c ∧
    (fin.pos ≤ c.length → c.length < fin.pos + n * SINGLE_BLOCK_SIZE →
      (write_loop n fin fout w).1 = -1) := by
  induction n with
  | zero =>
    intro fin fout w _ hc
    refine ⟨hc, ?_⟩
    intro hpos hlt
    omega
  | succ n ih =>
    intro fin fout w hsame hc
    rw [write_loop]
    simp only
    split
    · exact ⟨by rw [fread_fs]; exact hc, fun _ _ => rfl⟩
    · rename_i hr
      have hr1 : (fread fin w).1 = 1 := not_not.mp hr
      obtain ⟨hp1, hp2⟩ := fread_one fin w c hc hr1
      have hblk := fread_one_blocks fin w c hc hr1
      obtain ⟨m, hfs⟩ := fwrite_any fout (fread fin w).2.2
      rw [hblk, fread_fs, List.take_take] at hfs
      have hkept : (fwrite fout (fread fin w).2.2).2.2.fs fin.path = some c := by
        rw [hfs]
        by_cases h : fin.path = fout.path
        · rw [← h, Function.update_same, hc, Option.getD_some, ← hsame h,
            write_at_self c fin.pos _ (by omega)]
        · rw [Function.update_noteq h]
          exact hc
      split
      · exact ⟨hkept, fun _ _ => rfl⟩
      · rename_i hs
        have hs1 : (fwrite fout (fread fin w).2.2).1 = 1 := not_not.mp hs
        have hq := fwrite_one fout (fread fin w).2.2 hs1
        rw [hblk, take_block_length c fin.pos SINGLE_BLOCK_SIZE hp2] at hq
        have hsucc : (n + 1) * SINGLE_BLOCK_SIZE = SINGLE_BLOCK_SIZE + n * SINGLE_BLOCK_SIZE := by
          rw [Nat.succ_mul, Nat.add_comm]
        have hsame2 : (fread fin w).2.1.path = (fwrite fout (fread fin w).2.2).2.1.path →
            (fread fin w).2.1.pos = (fwrite fout (fread fin w).2.2).2.1.pos := by
          intro hpath
          rw [hp1, hq]
          rw [fread_path, fwrite_path] at hpath
          simp only
          rw [hsame hpath]
        obtain ⟨k1, k2⟩ := ih (fread fin w).2.1 (fwrite fout (fread fin w).2.2).2.1
          (fwrite fout (fread fin w).2.2).2.2 hsame2 (by rw [fread_path]; exact hkept)
        refine ⟨by rw [fread_path] at k1; exact k1, ?_⟩
        intro _ hlt
        apply k2
        · rw [hp1]
          exact hp2
        · rw [hp1]
          omega

/-- However the I/O calls turn out, `write_file` leaves its source as it
was, also when the destination is the source itself. -/
theorem write_file_keeps_source (inp out : String) (numblocks : Int) (w : World) :
    (write_file inp out numblocks w).2.fs inp = w.fs inp := by
  have afs := fopen_read_fs inp Mode.rb w (by decide)
  have bfs := fopen_read_fs out Mode.rb_plus (fopen inp Mode.rb w).2 (by decide)
  unfold write_file
  simp only
  split
  · rename_i fin fout ha hb
    have hfin := fopen_some _ _ _ _ ha
    have hfout := fopen_some _ _ _ _ hb
    subst hfin hfout
    cases hc : w.fs inp with
    | none =>
      rw [fopen_missing inp Mode.rb w (by decide) hc] at ha
      cases ha
    | some c =>
      exact (write_loop_source c numblocks.toNat ⟨inp, 0⟩ ⟨out, 0⟩ _ (fun _ => rfl)
        (by rw [bfs, afs]; exact hc)).1
  · rw [bfs, afs]

/-- However the I/O calls turn out, `write_file` fails when the source holds
fewer full blocks than asked for. -/
theorem write_file_lacking (inp out : String) (numblocks : Int) (c : List Byte) (w : World)
    (hc : w.fs inp = some c) (hlt : c.length < numblocks.toNat * SINGLE_BLOCK_SIZE) :
    (write_file inp out numblocks w).1 = -1 := by
  have afs := fopen_read_fs inp Mode.rb w (by decide)
  have bfs := fopen_read_fs out Mode.rb_plus (fopen inp Mode.rb w).2 (by decide)
  unfold write_file
  simp only
  split
  · rename_i fin fout ha hb
    have hfin := fopen_some _ _ _ _ ha
    have hfout := fopen_some _ _ _ _ hb
    subst hfin hfout
    exact (write_loop_source c numblocks.toNat ⟨inp, 0⟩ ⟨out, 0⟩ _ (fun _ => rfl)
      (by rw [bfs, afs]; exact hc)).2 (Nat.zero_le _) (by simpa using hlt)
  · rfl

/-! ## The transforming copy -/

theorem block_size_words : SINGLE_BLOCK_SIZE = 4 * (SINGLE_BLOCK_SIZE / 4) := by
  norm_num [SINGLE_BLOCK_SIZE]

theorem NoFaults_blocks (w : World) (b : List Byte) (h : NoFaults w) :
    NoFaults { w with blocks := b } :=
  fun o ho => h o ho

/-- The inner loop run on the buffer right after a complete `fread`. -/
theorem xor_loop_block (bo : ByteOrder) (blocks blk : List Byte) (st : xorshift32_state)
    (hb : blocks.take SINGLE_BLOCK_SIZE = blk) (hl : blk.length = SINGLE_BLOCK_SIZE) :
    xor_loop bo (SINGLE_BLOCK_SIZE / 4) 0 blocks st =
      ((xor_words bo blk st).1 ++ blocks.drop SINGLE_BLOCK_SIZE, (xor_words bo blk st).2) := by
  have hsplit : blocks = [] ++ blk ++ blocks.drop SINGLE_BLOCK_SIZE := by
    rw [List.nil_append, ← hb, List.take_append_drop]
  have h := xor_loop_eq bo (SINGLE_BLOCK_SIZE / 4) 0 [] blk (blocks.drop SINGLE_BLOCK_SIZE) st rfl
    (by rw [hl]; exact block_size_words)
  rw [← hsplit] at h
  rw [h, List.nil_append]

/-- One full iteration of the transform loop when a whole block is left to
read and no I/O error is pending. -/
theorem transform_loop_step (bo : ByteOrder) (inp out : String) (c d : List Byte) (n p : Nat)
    (st : xorshift32_state) (w : World) (hw : NoFaults w) (hc : w.fs inp = some c)
    (hd : w.fs out = some d) (hp : p + SINGLE_BLOCK_SIZE ≤ c.length) :
    ∃ w1, NoFaults w1 ∧
      w1.fs = Function.update w.fs out
        (some (write_at d p (xor_words bo ((c.drop p).take SINGLE_BLOCK_SIZE) st).1)) ∧
      transform_loop bo (n + 1) ⟨inp, p⟩ ⟨out, p⟩ st w =
        transform_loop bo n ⟨inp, p + SINGLE_BLOCK_SIZE⟩ ⟨out, p + SINGLE_BLOCK_SIZE⟩
          (xor_words bo ((c.drop p).take SINGLE_BLOCK_SIZE) st).2 w1 := by
  obtain ⟨r1, r2, r3, r4⟩ := fread_ok ⟨inp, p⟩ w c hw hc hp
  have rfs := fread_fs ⟨inp, p⟩ w
  have hblk := take_block_length c p SINGLE_BLOCK_SIZE hp
  simp only at r2 r3
  have hx := xor_loop_block bo (fread ⟨inp, p⟩ w).2.2.blocks _ st r3 hblk
  have hxl : (xor_words bo ((c.drop p).take SINGLE_BLOCK_SIZE) st).1.length =
      SINGLE_BLOCK_SIZE := by rw [xor_words_length, hblk]
  have hw1 := NoFaults_blocks (fread ⟨inp, p⟩ w).2.2
    (xor_loop bo (SINGLE_BLOCK_SIZE / 4) 0 (fread ⟨inp, p⟩ w).2.2.blocks st).1 r4
  have hd1 : (fread ⟨inp, p⟩ w).2.2.fs out = some d := by rw [rfs]; exact hd
  obtain ⟨s1, s2, s3, s4⟩ := fwrite_ok ⟨out, p⟩ _ d hw1 hd1
  have hb : List.take SINGLE_BLOCK_SIZE
      (xor_loop bo (SINGLE_BLOCK_SIZE / 4) 0 (fread ⟨inp, p⟩ w).2.2.blocks st).1 =
      (xor_words bo ((c.drop p).take SINGLE_BLOCK_SIZE) st).1 := by
    rw [hx]
    exact List.take_left' hxl
  simp only at s2 s3
  rw [hb] at s2 s3
  rw [hxl] at s2
  conv at s3 => rhs; rw [rfs]
  refine ⟨_, s4, s3, ?_⟩
  rw [transform_loop]
  simp only [r1, s1, r2, s2, ne_eq, not_true_eq_false, if_false]
  rw [hx]

/-- Transforming `n` blocks when the source holds them all: `ret = 0`, the
output holds the chunk-wise transform of those `n` blocks taken as one run
of words, and the generator state is carried from block to block. -/
theorem transform_loop_ok (bo : ByteOrder) (inp out : String) (c : List Byte) (hne : inp ≠ out)
    (n : Nat) : ∀ (p : Nat) (d : List Byte) (st : xorshift32_state) (w : World), NoFaults w →
      w.fs inp = some c → w.fs out = some d → p ≤ d.length →
      p + n * SINGLE_BLOCK_SIZE ≤ c.length →
      (transform_loop bo n ⟨inp, p⟩ ⟨out, p⟩ st w).1 = 0 ∧
      NoFaults (transform_loop bo n ⟨inp, p⟩ ⟨out, p⟩ st w).2.2.2.2 ∧
      (transform_loop bo n ⟨inp, p⟩ ⟨out, p⟩ st w).2.2.2.1 =
        (xor_words bo ((c.drop p).take (n * SINGLE_BLOCK_SIZE)) st).2 ∧
      (transform_loop bo n ⟨inp, p⟩ ⟨out, p⟩ st w).2.2.2.2.fs = Function.update w.fs out
        (some (write_at d p (xor_words bo ((c.drop p).take (n * SINGLE_BLOCK_SIZE)) st).1)) := by
  induction n with
  | zero =>
    intro p d st w hw _ hd hp _
    simp only [transform_loop, Nat.zero_mul, List.take_zero, xor_words, write_at_nil d p hp]
    refine ⟨trivial, hw, trivial, ?_⟩
    rw [← hd, Function.update_eq_self]
  | succ n ih =>
    intro p d st w hw hc hd hp hlen
    have hsucc : (n + 1) * SINGLE_BLOCK_SIZE = SINGLE_BLOCK_SIZE + n * SINGLE_BLOCK_SIZE := by
      rw [Nat.succ_mul, Nat.add_comm]
    have hp1 : p + SINGLE_BLOCK_SIZE ≤ c.length := by omega
    obtain ⟨w1, hw1, hfs1, hstep⟩ := transform_loop_step bo inp out c d n p st w hw hc hd hp1
    have hblk := take_block_length c p SINGLE_BLOCK_SIZE hp1
    have hxl : (xor_words bo ((c.drop p).take SINGLE_BLOCK_SIZE) st).1.length =
        SINGLE_BLOCK_SIZE := by rw [xor_words_length, hblk]
    have hc1 : w1.fs inp = some c := by rw [hfs1, Function.update_noteq hne]; exact hc
    have hd1 : w1.fs out =
        some (write_at d p (xor_words bo ((c.drop p).take SINGLE_BLOCK_SIZE) st).1) := by
      rw [hfs1, Function.update_same]
    have hlen1 := write_at_length d p (xor_words bo ((c.drop p).take SINGLE_BLOCK_SIZE) st).1 hp
    rw [hxl] at hlen1
    obtain ⟨i1, i2, i3, i4⟩ := ih (p + SINGLE_BLOCK_SIZE) _ _ w1 hw1 hc1 hd1 hlen1 (by omega)
    have happ := xor_words_append bo (SINGLE_BLOCK_SIZE / 4) ((c.drop p).take SINGLE_BLOCK_SIZE)
      ((c.drop (p + SINGLE_BLOCK_SIZE)).take (n * SINGLE_BLOCK_SIZE)) st
      (by rw [hblk]; exact block_size_words)
    rw [take_block_append] at happ
    rw [hstep, hsucc, happ]
    refine ⟨i1, i2, i3, ?_⟩
    rw [i4, hfs1, Function.update_idem]
    have hww := write_at_write_at d p (xor_words bo ((c.drop p).take SINGLE_BLOCK_SIZE) st).1
      (xor_words bo ((c.drop (p + SINGLE_BLOCK_SIZE)).take (n * SINGLE_BLOCK_SIZE))
        (xor_words bo ((c.drop p).take SINGLE_BLOCK_SIZE) st).2).1 hp
    rw [hxl] at hww
    rw [hww]

/-- The transform loop changes no file but the one the output stream is
bound to, whatever I/O errors occur. -/
theorem transform_loop_frame (bo : ByteOrder) (n : Nat) :
    ∀ (fin fout : FILE) (st : xorshift32_state) (w : World) (q : String),
      q ≠ fout.path → (transform_loop bo n fin fout st w).2.2.2.2.fs q = w.fs q := by
  induction n with
  | zero => intro fin fout st w q _; rfl
  | succ n ih =>
    intro fin fout st w q hq
    rw [transform_loop]
    simp only
    split
    · exact congrFun (fread_fs fin w) q
    · split
      · rw [fwrite_frame fout _ q hq]
        exact congrFun (fread_fs fin w) q
      · rw [ih _ _ _ _ q (by rw [fwrite_path]; exact hq), fwrite_frame fout _ q hq]
        exact congrFun (fread_fs fin w) q

theorem blocks_length_mod (c : List Byte) (k : Nat) (h : k * SINGLE_BLOCK_SIZE ≤ c.length) :
    (c.take (k * SINGLE_BLOCK_SIZE)).length % 4 = 0 := by
  have hb := block_size_words
  rw [List.length_take, Nat.min_eq_left h, hb, ← Nat.mul_assoc, Nat.mul_comm _ 4,
    Nat.mul_assoc]
  exact Nat.mul_mod_right _ _

/-- A call of `transform_file` with the source holding all the blocks asked
for: it returns 0 and the output is the word-wise transform of those blocks. -/
theorem transform_file_ok (bo : ByteOrder) (inp out : String) (seed numblocks : Int)
    (c : List Byte) (w : World) (hne : inp ≠ out) (hw : NoFaults w) (hc : w.fs inp = some c)
    (hlen : numblocks.toNat * SINGLE_BLOCK_SIZE ≤ c.length) :
    (transform_file bo inp out seed numblocks w).1 = 0 ∧
      NoFaults (transform_file bo inp out seed numblocks w).2 ∧
      (transform_file bo inp out seed numblocks w).2.fs = Function.update w.fs out
        (some (transform_buffer bo seed (c.take (numblocks.toNat * SINGLE_BLOCK_SIZE)))) := by
  obtain ⟨a1, a2⟩ := fopen_ok_read inp Mode.rb w c (by decide) hw hc
  have afs := fopen_read_fs inp Mode.rb w (by decide)
  obtain ⟨b1, b2, b3⟩ := fopen_ok_wb out (fopen inp Mode.rb w).2 a2
  rw [afs] at b2
  have hc2 : (fopen out Mode.wb (fopen inp Mode.rb w).2).2.fs inp = some c := by
    rw [b2, Function.update_noteq hne]; exact hc
  have hd2 : (fopen out Mode.wb (fopen inp Mode.rb w).2).2.fs out = some [] := by
    rw [b2, Function.update_same]
  obtain ⟨i1, i2, _, i4⟩ := transform_loop_ok bo inp out c hne numblocks.toNat 0 []
    (state_of_seed seed) _ b3 hc2 hd2 (Nat.zero_le _) (by omega)
  simp only [transform_file, a1, b1]
  refine ⟨i1, i2, ?_⟩
  rw [i4, b2, Function.update_idem, List.drop_zero, write_at_zero,
    transform_buffer_eq bo seed _ (blocks_length_mod c _ hlen)]
  simp

/-- Whatever happens, `transform_file` changes no file but its output. -/
theorem transform_file_frame (bo : ByteOrder) (inp out : String) (seed numblocks : Int)
    (w : World) (q : String) (hq : q ≠ out) :
    (transform_file bo inp out seed numblocks w).2.fs q = w.fs q := by
  have afs := fopen_read_fs inp Mode.rb w (by decide)
  have bfs := fopen_frame out Mode.wb (fopen inp Mode.rb w).2 q hq
  unfold transform_file
  simp only
  split
  · rename_i fin fout _ hb
    have hf := fopen_some _ _ _ _ hb
    rw [transform_loop_frame _ _ _ _ _ _ q (by rw [hf]; exact hq), bfs, afs]
  · rw [bfs, afs]

/-! ## The three phases -/

/-- The three phases on a target that holds the blocks asked for, with an
existing `./bkp` and no I/O error: every phase returns 0; the target's first
blocks are replaced by their transform, `./bkp` receives a copy of them and
`./bkp.xor` holds exactly their transform. -/
theorem run_phases_ok (bo : ByteOrder) (file_str : String) (seed numblocks : Int)
    (t b : List Byte) (w : World) (h1 : file_str ≠ "./bkp") (h2 : file_str ≠ "./bkp.xor")
    (hw : NoFaults w) (ht : w.fs file_str = some t) (hb : w.fs "./bkp" = some b)
    (hlen : numblocks.toNat * SINGLE_BLOCK_SIZE ≤ t.length) :
    (run_phases bo file_str seed numblocks w).1 = 0 ∧
      NoFaults (run_phases bo file_str seed numblocks w).2 ∧
      (run_phases bo file_str seed numblocks w).2.fs file_str =
        some (transform_buffer bo seed (t.take (numblocks.toNat * SINGLE_BLOCK_SIZE)) ++
          t.drop (numblocks.toNat * SINGLE_BLOCK_SIZE)) ∧
      (run_phases bo file_str seed numblocks w).2.fs "./bkp" =
        some (t.take (numblocks.toNat * SINGLE_BLOCK_SIZE) ++
          b.drop (numblocks.toNat * SINGLE_BLOCK_SIZE)) ∧
      (run_phases bo file_str seed numblocks w).2.fs "./bkp.xor" =
        some (transform_buffer bo seed (t.take (numblocks.toNat * SINGLE_BLOCK_SIZE))) ∧
      ∀ q, q ≠ file_str → q ≠ "./bkp" → q ≠ "./bkp.xor" →
        (run_phases bo file_str seed numblocks w).2.fs q = w.fs q := by
  have hbx : ("./bkp" : String) ≠ "./bkp.xor" := by decide
  obtain ⟨p1, p2, p3⟩ := write_file_ok file_str "./bkp" numblocks t b w hw ht hb hlen
  have hk : (t.take (numblocks.toNat * SINGLE_BLOCK_SIZE)).length =
      numblocks.toNat * SINGLE_BLOCK_SIZE := by
    rw [List.length_take]; omega
  have hb1 : (write_file file_str "./bkp" numblocks w).2.fs "./bkp" =
      some (t.take (numblocks.toNat * SINGLE_BLOCK_SIZE) ++
        b.drop (numblocks.toNat * SINGLE_BLOCK_SIZE)) := by
    rw [p3, Function.update_same]
  obtain ⟨q1, q2, q3⟩ := transform_file_ok bo "./bkp" "./bkp.xor" seed numblocks _ _ hbx p2 hb1
    (by rw [List.length_append, hk]; omega)
  rw [List.take_left' hk] at q3
  have hmod := blocks_length_mod t numblocks.toNat hlen
  have hx2 : (transform_file bo "./bkp" "./bkp.xor" seed numblocks
      (write_file file_str "./bkp" numblocks w).2).2.fs "./bkp.xor" =
      some (transform_buffer bo seed (t.take (numblocks.toNat * SINGLE_BLOCK_SIZE))) := by
    rw [q3, Function.update_same]
  have ht2 : (transform_file bo "./bkp" "./bkp.xor" seed numblocks
      (write_file file_str "./bkp" numblocks w).2).2.fs file_str = some t := by
    rw [q3, Function.update_noteq h2, p3, Function.update_noteq h1]; exact ht
  have hxl : (transform_buffer bo seed (t.take (numblocks.toNat * SINGLE_BLOCK_SIZE))).length =
      numblocks.toNat * SINGLE_BLOCK_SIZE := by
    rw [transform_buffer_length bo seed _ hmod, hk]
  obtain ⟨r1, r2, r3⟩ := write_file_ok "./bkp.xor" file_str numblocks _ t _ q2 hx2
    ht2 (by rw [hxl])
  rw [List.take_of_length_le (by rw [hxl])] at r3
  have hrun : run_phases bo file_str seed numblocks w = (0, (write_file "./bkp.xor" file_str
      numblocks (transform_file bo "./bkp" "./bkp.xor" seed numblocks
        (write_file file_str "./bkp" numblocks w).2).2).2) := by
    simp only [run_phases, p1, q1, r1, ne_eq, not_true_eq_false, if_false]
  rw [hrun]
  simp only
  rw [r3, q3, p3]
  refine ⟨trivial, r2, ?_, ?_, ?_, ?_⟩
  · rw [Function.update_same]
  · rw [Function.update_noteq (Ne.symm h1), Function.update_noteq hbx, Function.update_same]
  · rw [Function.update_noteq (Ne.symm h2), Function.update_same]
  · intro q hq1 hq2 hq3
    rw [Function.update_noteq hq1, Function.update_noteq hq3, Function.update_noteq hq2]

/-! ## Confirmation line -/

theorem isPrefixOf_iff (n l : List Char) : n.isPrefixOf l = true ↔ ∃ post, l = n ++ post := by
  induction n generalizing l with
  | nil => simp
  | cons a n ih =>
    cases l with
    | nil => simp
    | cons b l =>
      simp only [List.isPrefixOf, Bool.and_eq_true, beq_iff_eq, ih, List.cons_append,
        List.cons.injEq]
      constructor
      · rintro ⟨rfl, post, rfl⟩
        exact ⟨post, rfl, rfl⟩
      · rintro ⟨post, rfl, rfl⟩
        exact ⟨rfl, post, rfl⟩

/-- The call `strstr` finds the needle exactly when the haystack contains it
as a run of consecutive characters. -/
theorem strstr_isSome_iff (h n : List Char) :
    (strstr h n).isSome = true ↔ ∃ pre post, h = pre ++ n ++ post := by
  induction h with
  | nil =>
    simp only [strstr]
    constructor
    · intro hs
      split at hs
      · rename_i he
        exact ⟨[], [], by simp [List.isEmpty_iff.mp he]⟩
      · cases hs
    · rintro ⟨pre, post, he⟩
      have hn : n = [] := by
        have hl := congrArg List.length he
        simp only [List.length_nil, List.length_append] at hl
        exact List.length_eq_zero.mp (by omega)
      simp [hn]
  | cons c t ih =>
    simp only [strstr]
    by_cases hp : n.isPrefixOf (c :: t) = true
    · simp only [hp, if_true, Option.isSome_some, true_iff]
      obtain ⟨post, hpost⟩ := (isPrefixOf_iff n (c :: t)).mp hp
      exact ⟨[], post, by simpa using hpost⟩
    · have hp2 : n.isPrefixOf (c :: t) = false := Bool.eq_false_iff.mpr hp
      rw [hp2]
      simp only [Bool.false_eq_true, if_false, ih]
      constructor
      · rintro ⟨pre, post, he⟩
        exact ⟨c :: pre, post, by simp [he]⟩
      · rintro ⟨pre, post, he⟩
        cases pre with
        | nil =>
          exact (hp ((isPrefixOf_iff n (c :: t)).mpr ⟨post, by simpa using he⟩)).elim
        | cons a pre =>
          simp only [List.cons_append, List.cons.injEq] at he
          exact ⟨pre, post, he.2⟩

/-! ## Sample worlds -/

theorem world_of_NoFaults (files : List (String × List Byte)) : NoFaults (world_of files []) := by
  intro o ho
  cases ho

theorem pattern_length (n : Nat) : (pattern n).length = n := by
  simp [pattern]

theorem word_at_take (bo : ByteOrder) (l : List Byte) (m n : Nat) (h : 4 * n + 4 ≤ m) :
    word_at bo (l.take m) n = word_at bo l n := by
  have h4 : min 4 (m - 4 * n) = 4 := by omega
  simp only [word_at, List.drop_take, List.take_take, h4]

theorem word_at_append (bo : ByteOrder) (l r : List Byte) (n : Nat) (h : 4 * n + 4 ≤ l.length) :
    word_at bo (l ++ r) n = word_at bo l n := by
  simp only [word_at]
  rw [List.drop_append_of_le_length (by omega), List.take_append_of_le_length]
  rw [List.length_drop]
  omega

/-! ## Claims about the generator and the transform -/

theorem block_size_value : SINGLE_BLOCK_SIZE = 1048576 := by
  norm_num [SINGLE_BLOCK_SIZE]

theorem transform_buffer_zero_state (bo : ByteOrder) (seed : Int) (h : seed % 2 ^ 32 = 0)
    (l : List Byte) (hl : l.length % 4 = 0) : transform_buffer bo seed l = l := by
  have hst : state_of_seed seed = ⟨0⟩ := by
    simp only [state_of_seed, h]
    rfl
  rw [transform_buffer_eq bo seed l hl, xor_words_zero bo l _ hst]

/-- C9. The `xorshift32` step is injective on 32-bit words: two states that
give the same drawn word, or the same next state, are equal.  Hence a
non-zero 32-bit state gives a non-zero word and a non-zero 32-bit next state,
and neither the states nor the words of a keystream started from a non-zero
32-bit state are ever zero. -/
theorem xorshift32_preserves_nonzero :
    (∀ a b : Nat, a < 2 ^ 32 → b < 2 ^ 32 →
      ((xorshift32 ⟨a⟩).1 = (xorshift32 ⟨b⟩).1 → a = b) ∧
      ((xorshift32 ⟨a⟩).2 = (xorshift32 ⟨b⟩).2 → a = b)) ∧
    (∀ a : Nat, a < 2 ^ 32 → a ≠ 0 →
      (xorshift32 ⟨a⟩).1 ≠ 0 ∧ (xorshift32 ⟨a⟩).2.a ≠ 0 ∧ (xorshift32 ⟨a⟩).2.a < 2 ^ 32) ∧
    (∀ a n : Nat, a < 2 ^ 32 → a ≠ 0 →
      (state_after n ⟨a⟩).a ≠ 0 ∧ ∀ k ∈ keystream n ⟨a⟩, k ≠ 0) := by
  refine ⟨?_, ?_, ?_⟩
  · intro a b ha hb
    refine ⟨xorshift32_fst_inj a b ha hb, ?_⟩
    intro h
    apply xorshift32_fst_inj a b ha hb
    have h2 := congrArg xorshift32_state.a h
    exact h2
  · intro a ha h0
    exact ⟨xorshift32_fst_ne_zero a ha h0, xorshift32_fst_ne_zero a ha h0,
      xorshift32_fst_lt a ha⟩
  · intro a n ha h0
    exact ⟨state_after_ne_zero n ⟨a⟩ ha h0, keystream_ne_zero n ⟨a⟩ ha h0⟩

/-- C9 at the state 1: the drawn word is 270369, the state after three draws
is non-zero, and the states 1 and 2 draw different words. -/
theorem xorshift32_preserves_nonzero_witness :
    ((1 : Nat) < 2 ^ 32 ∧ (2 : Nat) < 2 ^ 32 ∧ (1 : Nat) ≠ 0) ∧ (xorshift32 ⟨1⟩).1 = 270369 ∧
      (xorshift32 ⟨1⟩).1 ≠ 0 ∧ (state_after 3 ⟨1⟩).a ≠ 0 ∧
      (xorshift32 ⟨1⟩).1 ≠ (xorshift32 ⟨2⟩).1 :=
  ⟨⟨by decide, by decide, by decide⟩, by decide,
    (xorshift32_preserves_nonzero.2.1 1 (by decide) (by decide)).1,
    (xorshift32_preserves_nonzero.2.2 1 3 (by decide) (by decide)).1,
    fun h => absurd ((xorshift32_preserves_nonzero.1 1 2 (by decide) (by decide)).1 h)
      (by decide)⟩

/-- C8. Called on state 0, `xorshift32` returns 0 and leaves the state 0, so
every word of the keystream from a zero state is 0; and for seed 0 and a
source holding at least `K` full blocks (no I/O error, output distinct from
the source) `transform_file` returns 0 and its output is byte for byte the
first `K` blocks of the input. -/
theorem zero_state_degenerate :
    xorshift32 ⟨0⟩ = (0, ⟨0⟩) ∧ (∀ n, keystream n ⟨0⟩ = List.replicate n 0) ∧
    (∀ (bo : ByteOrder) (inp out : String) (K : Int) (c : List Byte) (w : World),
      inp ≠ out → NoFaults w → w.fs inp = some c →
      K.toNat * SINGLE_BLOCK_SIZE ≤ c.length →
      (transform_file bo inp out 0 K w).1 = 0 ∧
      (transform_file bo inp out 0 K w).2.fs out =
        some (c.take (K.toNat * SINGLE_BLOCK_SIZE))) := by
  refine ⟨xorshift32_zero, keystream_zero, ?_⟩
  intro bo inp out K c w hne hw hc hlen
  obtain ⟨h1, _, h3⟩ := transform_file_ok bo inp out 0 K c w hne hw hc hlen
  refine ⟨h1, ?_⟩
  rw [h3, Function.update_same,
    transform_buffer_zero_state bo 0 (by decide) _ (blocks_length_mod c _ hlen)]

/-- C8 on one block of the repeating byte pattern: with seed 0 the output
file is the input file. -/
theorem zero_state_degenerate_witness :
    (transform_file ByteOrder.little "in" "out" 0 1
        (world_of [("in", pattern SINGLE_BLOCK_SIZE)] [])).2.fs "out" =
      some (pattern SINGLE_BLOCK_SIZE) := by
  have h := (zero_state_degenerate.2.2 ByteOrder.little "in" "out" 1 (pattern SINGLE_BLOCK_SIZE)
    (world_of [("in", pattern SINGLE_BLOCK_SIZE)] []) (by decide) (world_of_NoFaults _) rfl
    (by rw [pattern_length]; simp)).2
  rw [h, List.take_of_length_le (by rw [pattern_length]; simp)]

/-- C10. `transform_file` uses the seed only through its value modulo
`2 ^ 32`: two seeds congruent modulo `2 ^ 32` give the same result on every
input and every world.  When the seed is a multiple of `2 ^ 32` the state
starts at 0, and for a source holding at least `K` full blocks (no I/O error)
the output is the first `K` blocks of the input unchanged. -/
theorem seed_truncation (s1 s2 : Int) (h : s1 % 2 ^ 32 = s2 % 2 ^ 32) :
    (∀ (bo : ByteOrder) (inp out : String) (K : Int) (w : World),
      transform_file bo inp out s1 K w = transform_file bo inp out s2 K w) ∧
    (s2 % 2 ^ 32 = 0 → state_of_seed s1 = ⟨0⟩ ∧
      ∀ (bo : ByteOrder) (inp out : String) (K : Int) (c : List Byte) (w : World),
        inp ≠ out → NoFaults w → w.fs inp = some c →
        K.toNat * SINGLE_BLOCK_SIZE ≤ c.length →
        (transform_file bo inp out s1 K w).1 = 0 ∧
        (transform_file bo inp out s1 K w).2.fs out =
          some (c.take (K.toNat * SINGLE_BLOCK_SIZE))) := by
  have hst : state_of_seed s1 = state_of_seed s2 := by
    simp only [state_of_seed, h]
  refine ⟨?_, ?_⟩
  · intro bo inp out K w
    simp only [transform_file, hst]
  · intro h0
    have h1 : s1 % 2 ^ 32 = 0 := by rw [h]; exact h0
    refine ⟨?_, ?_⟩
    · simp only [state_of_seed, h1]
      rfl
    · intro bo inp out K c w hne hw hc hlen
      obtain ⟨r1, _, r3⟩ := transform_file_ok bo inp out s1 K c w hne hw hc hlen
      refine ⟨r1, ?_⟩
      rw [r3, Function.update_same,
        transform_buffer_zero_state bo s1 h1 _ (blocks_length_mod c _ hlen)]

/-- C10 at the seeds 4294967296 and 0 on one block of the byte pattern: both
seeds give the same run, the state starts at 0 and the output is the input. -/
theorem seed_truncation_witness :
    ((4294967296 : Int) % 2 ^ 32 = 0 % 2 ^ 32) ∧
      transform_file ByteOrder.little "in" "out" 4294967296 1
          (world_of [("in", pattern SINGLE_BLOCK_SIZE)] []) =
        transform_file ByteOrder.little "in" "out" 0 1
          (world_of [("in", pattern SINGLE_BLOCK_SIZE)] []) ∧
      state_of_seed 4294967296 = ⟨0⟩ ∧
      (transform_file ByteOrder.little "in" "out" 4294967296 1
          (world_of [("in", pattern SINGLE_BLOCK_SIZE)] [])).2.fs "out" =
        some (pattern SINGLE_BLOCK_SIZE) := by
  have h := seed_truncation 4294967296 0 (by decide)
  refine ⟨by decide, h.1 _ _ _ _ _, (h.2 (by decide)).1, ?_⟩
  have h2 := ((h.2 (by decide)).2 ByteOrder.little "in" "out" 1 (pattern SINGLE_BLOCK_SIZE)
    (world_of [("in", pattern SINGLE_BLOCK_SIZE)] []) (by decide) (world_of_NoFaults _) rfl
    (by rw [pattern_length]; simp)).2
  rw [h2, List.take_of_length_le (by rw [pattern_length]; simp)]

/-- C1. Round trip of the block transform.  For every seed (zero or not) and
every buffer whose byte length is a multiple of 4, the word-wise XOR
transform applied twice, the generator set from the same seed before each
pass, gives back the buffer.  In particular, when the buffer is the content
of a file of `K` full blocks, `transform_file` run from that file into a
second one and again from the second into a third returns 0 both times and
leaves the third file equal to the first, byte for byte. -/
theorem transform_round_trip (bo : ByteOrder) (seed : Int) (buf : List Byte)
    (hlen : buf.length % 4 = 0) :
    transform_buffer bo seed (transform_buffer bo seed buf) = buf ∧
    ∀ (inp mid out : String) (K : Int) (w : World), inp ≠ mid → mid ≠ out → NoFaults w →
      w.fs inp = some buf → buf.length = K.toNat * SINGLE_BLOCK_SIZE →
      (transform_file bo inp mid seed K w).1 = 0 ∧
      (transform_file bo inp mid seed K w).2.fs mid = some (transform_buffer bo seed buf) ∧
      (transform_file bo mid out seed K (transform_file bo inp mid seed K w).2).1 = 0 ∧
      (transform_file bo mid out seed K (transform_file bo inp mid seed K w).2).2.fs out =
        some buf := by
  refine ⟨transform_buffer_involutive bo seed buf hlen, ?_⟩
  intro inp mid out K w h1 h2 hw hc hk
  obtain ⟨p1, p2, p3⟩ := transform_file_ok bo inp mid seed K buf w h1 hw hc (by omega)
  rw [List.take_of_length_le (by omega)] at p3
  have hmid : (transform_file bo inp mid seed K w).2.fs mid =
      some (transform_buffer bo seed buf) := by
    rw [p3, Function.update_same]
  have hl := transform_buffer_length bo seed buf hlen
  obtain ⟨q1, _, q3⟩ := transform_file_ok bo mid out seed K _ _ h2 p2 hmid (by omega)
  rw [List.take_of_length_le (by omega)] at q3
  refine ⟨p1, hmid, q1, ?_⟩
  rw [q3, Function.update_same, transform_buffer_involutive bo seed buf hlen]

/-- C1 at seed 42: on an 8-byte buffer the first pass changes the bytes and
the second restores them; on a file of one block of the byte pattern two
passes of `transform_file` restore the file. -/
theorem transform_round_trip_witness :
    transform_buffer ByteOrder.little 42 [1, 2, 3, 4, 5, 6, 7, 8] ≠ [1, 2, 3, 4, 5, 6, 7, 8] ∧
      transform_buffer ByteOrder.little 42
          (transform_buffer ByteOrder.little 42 [1, 2, 3, 4, 5, 6, 7, 8]) =
        [1, 2, 3, 4, 5, 6, 7, 8] ∧
      (pattern SINGLE_BLOCK_SIZE).length % 4 = 0 ∧
      (transform_file ByteOrder.little "b" "c" 42 1
          (transform_file ByteOrder.little "a" "b" 42 1
            (world_of [("a", pattern SINGLE_BLOCK_SIZE)] [])).2).2.fs "c" =
        some (pattern SINGLE_BLOCK_SIZE) := by
  have hp : (pattern SINGLE_BLOCK_SIZE).length % 4 = 0 := by
    rw [pattern_length, block_size_value]
  exact ⟨by decide, (transform_round_trip ByteOrder.little 42 [1, 2, 3, 4, 5, 6, 7, 8] rfl).1, hp,
    ((transform_round_trip ByteOrder.little 42 (pattern SINGLE_BLOCK_SIZE) hp).2 "a" "b" "c" 1
      (world_of [("a", pattern SINGLE_BLOCK_SIZE)] []) (by decide) (by decide)
      (world_of_NoFaults _) rfl (by rw [pattern_length]; simp)).2.2.2⟩

/-- C7. With `f = spec_step` (so `f 1 = 270369`): for every seed and every
source holding at least `K` full blocks (no I/O error, output distinct from
the source) `transform_file` returns 0, its output has exactly
`K * 1048576` bytes, and for every word index `n` of the output, counted
from 0 over the whole file in either byte order, word `n` of the output is
word `n` of the input xored with `f` iterated `n + 1` times on the seed
modulo `2 ^ 32`: one state for the whole pass, one draw per 4-byte position,
carried across block boundaries. -/
theorem transform_keystream (bo : ByteOrder) (inp out : String) (seed K : Int) (c : List Byte)
    (w : World) (hne : inp ≠ out) (hw : NoFaults w) (hc : w.fs inp = some c)
    (hlen : K.toNat * SINGLE_BLOCK_SIZE ≤ c.length) :
    spec_step 1 = 270369 ∧ (transform_file bo inp out seed K w).1 = 0 ∧
    ∃ o, (transform_file bo inp out seed K w).2.fs out = some o ∧
      o.length = K.toNat * 1048576 ∧
      ∀ n, n < K.toNat * (1048576 / 4) →
        word_at bo o n = word_at bo c n ^^^ spec_step^[n + 1] (seed % 2 ^ 32).toNat := by
  obtain ⟨r1, _, r3⟩ := transform_file_ok bo inp out seed K c w hne hw hc hlen
  have hmod := blocks_length_mod c _ hlen
  have hbs := block_size_value
  have hk : (c.take (K.toNat * SINGLE_BLOCK_SIZE)).length = K.toNat * SINGLE_BLOCK_SIZE := by
    rw [List.length_take]; omega
  refine ⟨by decide, r1, _, by rw [r3, Function.update_same], ?_, ?_⟩
  · rw [transform_buffer_length bo seed _ hmod, hk, hbs]
  · intro n hn
    have h4 : 4 * n + 4 ≤ K.toNat * SINGLE_BLOCK_SIZE := by
      rw [hbs]
      omega
    rw [transform_buffer_eq bo seed _ hmod,
      word_at_xor_words bo _ _ n (state_of_seed_lt seed) (by rw [hk]; exact h4),
      word_at_take bo c _ n h4]
    have hd := draw_eq_iterate n (seed % 2 ^ 32).toNat (state_of_seed_lt seed)
    exact congrArg _ hd

/-- C7 at seed 1 on one block of zero bytes: the run returns 0 and word 0 of
the output is `f 1 = 270369`. -/
theorem transform_keystream_witness :
    (transform_file ByteOrder.little "in" "out" 1 1
        (world_of [("in", List.replicate SINGLE_BLOCK_SIZE 0)] [])).1 = 0 ∧
      ∃ o, (transform_file ByteOrder.little "in" "out" 1 1
          (world_of [("in", List.replicate SINGLE_BLOCK_SIZE 0)] [])).2.fs "out" = some o ∧
        o.length = 1048576 ∧ word_at ByteOrder.little o 0 = 270369 := by
  have hz : word_at ByteOrder.little (List.replicate SINGLE_BLOCK_SIZE (0 : Byte)) 0 = 0 := by
    rw [block_size_value]
    rfl
  obtain ⟨_, h1, o, h2, h3, h4⟩ := transform_keystream ByteOrder.little "in" "out" 1 1
    (List.replicate SINGLE_BLOCK_SIZE 0) (world_of [("in", List.replicate SINGLE_BLOCK_SIZE 0)] [])
    (by decide) (world_of_NoFaults _) rfl (by simp)
  refine ⟨h1, o, h2, by simpa using h3, ?_⟩
  have h5 := h4 0 (by decide)
  rw [hz] at h5
  rw [h5]
  decide

/-! ## Claims about the copier -/

/-- C3. For `K ≥ 0`, a source holding at least `K` full blocks and an
existing empty destination (no I/O error), `write_file` returns 0, leaves the destination equal to the first
`K` blocks of the source and every other file as it was; both streams are
opened at position 0 and the loop leaves each of them at position
`K * 1048576`. -/
theorem write_file_copies (inp out : String) (K : Int) (c : List Byte) (w : World)
    (hK : 0 ≤ K) (hw : NoFaults w) (hc : w.fs inp = some c)
    (hd : w.fs out = some []) (hlen : K.toNat * SINGLE_BLOCK_SIZE ≤ c.length) :
    (write_file inp out K w).1 = 0 ∧
    (write_file inp out K w).2.fs out = some (c.take (K.toNat * SINGLE_BLOCK_SIZE)) ∧
    (∀ q, q ≠ out → (write_file inp out K w).2.fs q = w.fs q) ∧
    (fopen inp Mode.rb w).1 = some ⟨inp, 0⟩ ∧
    (fopen out Mode.rb_plus (fopen inp Mode.rb w).2).1 = some ⟨out, 0⟩ ∧
    ((write_loop K.toNat ⟨inp, 0⟩ ⟨out, 0⟩
      (fopen out Mode.rb_plus (fopen inp Mode.rb w).2).2).2.1.pos : Int) = K * 1048576 ∧
    ((write_loop K.toNat ⟨inp, 0⟩ ⟨out, 0⟩
      (fopen out Mode.rb_plus (fopen inp Mode.rb w).2).2).2.2.1.pos : Int) = K * 1048576 := by
  obtain ⟨r1, _, r3⟩ := write_file_ok inp out K c [] w hw hc hd hlen
  have hio : inp = out → c = [] := by
    intro h
    rw [h, hd] at hc
    exact (Option.some.inj hc).symm
  obtain ⟨a1, a2⟩ := fopen_ok_read inp Mode.rb w c (by decide) hw hc
  have afs := fopen_read_fs inp Mode.rb w (by decide)
  have hd1 : (fopen inp Mode.rb w).2.fs out = some [] := by rw [afs]; exact hd
  obtain ⟨b1, b2⟩ := fopen_ok_read out Mode.rb_plus _ [] (by decide) a2 hd1
  have bfs := fopen_read_fs out Mode.rb_plus (fopen inp Mode.rb w).2 (by decide)
  have hc2 : (fopen out Mode.rb_plus (fopen inp Mode.rb w).2).2.fs inp = some c := by
    rw [bfs, afs]; exact hc
  have hd2 : (fopen out Mode.rb_plus (fopen inp Mode.rb w).2).2.fs out = some [] := by
    rw [bfs]; exact hd1
  obtain ⟨_, i2, i3, _, _⟩ := write_loop_ok inp out c K.toNat 0 [] _ hio b2 hc2 hd2
    (Nat.zero_le _) (by omega)
  have hbs := block_size_value
  refine ⟨r1, ?_, fun q hq => write_file_frame inp out K w q hq, a1, b1, ?_, ?_⟩
  · rw [r3, Function.update_same]
    simp
  · rw [i2]
    simp only [Nat.zero_add, hbs]
    omega
  · rw [i3]
    simp only [Nat.zero_add, hbs]
    omega

/-- C3 at `K = 2` on a source of two blocks of the byte pattern. -/
theorem write_file_copies_witness :
    (write_file "src" "dst" 2
        (world_of [("src", pattern (2 * SINGLE_BLOCK_SIZE)), ("dst", [])] [])).1 = 0 ∧
      (write_file "src" "dst" 2
        (world_of [("src", pattern (2 * SINGLE_BLOCK_SIZE)), ("dst", [])] [])).2.fs "dst" =
        some (pattern (2 * SINGLE_BLOCK_SIZE)) := by
  have h := write_file_copies "src" "dst" 2 (pattern (2 * SINGLE_BLOCK_SIZE))
    (world_of [("src", pattern (2 * SINGLE_BLOCK_SIZE)), ("dst", [])] []) (by decide)
    (world_of_NoFaults _) rfl rfl (by rw [pattern_length]; simp)
  refine ⟨h.1, ?_⟩
  rw [h.2.1, List.take_of_length_le (by rw [pattern_length]; simp)]

/-- C4. When the source holds only `M` complete blocks, fewer than the
`K ≥ 1` asked for (a shorter tail may follow them), `write_file` on an
existing destination (no I/O error) returns -1; the output stream stops at position `M * 1048576`; the
destination holds the `M` complete blocks followed by whatever it held
beyond them before, so no byte of the incomplete block and nothing after it
is written; every other file is as it was. -/
theorem write_file_short_read (inp out : String) (K : Int) (M : Nat) (c d : List Byte)
    (w : World) (hw : NoFaults w) (hc : w.fs inp = some c)
    (hd : w.fs out = some d) (hK : 1 ≤ K) (hM : (M : Int) < K)
    (hlen : M * SINGLE_BLOCK_SIZE ≤ c.length) (hshort : c.length < (M + 1) * SINGLE_BLOCK_SIZE) :
    (write_file inp out K w).1 = -1 ∧
    (write_file inp out K w).2.fs out =
      some (c.take (M * SINGLE_BLOCK_SIZE) ++ d.drop (M * SINGLE_BLOCK_SIZE)) ∧
    (∀ q, q ≠ out → (write_file inp out K w).2.fs q = w.fs q) ∧
    (write_loop K.toNat ⟨inp, 0⟩ ⟨out, 0⟩
      (fopen out Mode.rb_plus (fopen inp Mode.rb w).2).2).2.2.1.pos = M * 1048576 := by
  have hm : M < K.toNat := by omega
  obtain ⟨r1, r3⟩ := write_file_short inp out K M c d w hw hc hd hm hlen hshort
  have hio : inp = out → c = d := by
    intro h
    rw [h, hd] at hc
    exact (Option.some.inj hc).symm
  obtain ⟨_, a2⟩ := fopen_ok_read inp Mode.rb w c (by decide) hw hc
  have afs := fopen_read_fs inp Mode.rb w (by decide)
  have hd1 : (fopen inp Mode.rb w).2.fs out = some d := by rw [afs]; exact hd
  obtain ⟨_, b2⟩ := fopen_ok_read out Mode.rb_plus _ d (by decide) a2 hd1
  have bfs := fopen_read_fs out Mode.rb_plus (fopen inp Mode.rb w).2 (by decide)
  have hc2 : (fopen out Mode.rb_plus (fopen inp Mode.rb w).2).2.fs inp = some c := by
    rw [bfs, afs]; exact hc
  have hd2 : (fopen out Mode.rb_plus (fopen inp Mode.rb w).2).2.fs out = some d := by
    rw [bfs]; exact hd1
  obtain ⟨_, i3, _⟩ := write_loop_short inp out c M K.toNat 0 d _ hio b2 hc2 hd2
    (Nat.zero_le _) hm (by omega) (by omega)
  refine ⟨r1, ?_, fun q hq => write_file_frame inp out K w q hq, ?_⟩
  · rw [r3, Function.update_same]
  · rw [i3]
    simp only [Nat.zero_add, block_size_value]

/-- C4 at `K = 3` on a source of two blocks and a 5-byte tail, with an empty
destination: the call fails and the destination holds the two blocks only. -/
theorem write_file_short_read_witness :
    (write_file "src" "dst" 3
        (world_of [("src", pattern (2 * SINGLE_BLOCK_SIZE + 5)), ("dst", [])] [])).1 = -1 ∧
      (write_file "src" "dst" 3
        (world_of [("src", pattern (2 * SINGLE_BLOCK_SIZE + 5)), ("dst", [])] [])).2.fs "dst" =
        some ((pattern (2 * SINGLE_BLOCK_SIZE + 5)).take (2 * SINGLE_BLOCK_SIZE)) := by
  have h := write_file_short_read "src" "dst" 3 2 (pattern (2 * SINGLE_BLOCK_SIZE + 5)) []
    (world_of [("src", pattern (2 * SINGLE_BLOCK_SIZE + 5)), ("dst", [])] [])
    (world_of_NoFaults _) rfl rfl (by decide) (by decide)
    (by rw [pattern_length]; omega) (by rw [pattern_length, block_size_value]; norm_num)
  refine ⟨h.1, ?_⟩
  rw [h.2.1]
  simp

/-- The three phases with nothing assumed about which file the target is: on
a target that holds the blocks asked for, with an existing `./bkp` and no
I/O error, every phase returns 0, `./bkp` exists afterwards and the target
holds the transform of its first blocks, followed by its old tail unless
the target is `./bkp.xor` itself, which the transform phase truncated. -/
theorem run_phases_any_target (bo : ByteOrder) (file_str : String) (seed numblocks : Int)
    (t b : List Byte) (w : World) (hw : NoFaults w) (ht : w.fs file_str = some t)
    (hb : w.fs "./bkp" = some b) (hlen : numblocks.toNat * SINGLE_BLOCK_SIZE ≤ t.length) :
    (run_phases bo file_str seed numblocks w).1 = 0 ∧
      NoFaults (run_phases bo file_str seed numblocks w).2 ∧
      (∃ b1, (run_phases bo file_str seed numblocks w).2.fs "./bkp" = some b1) ∧
      (run_phases bo file_str seed numblocks w).2.fs file_str =
        some (transform_buffer bo seed (t.take (numblocks.toNat * SINGLE_BLOCK_SIZE)) ++
          if file_str = "./bkp.xor" then []
          else t.drop (numblocks.toNat * SINGLE_BLOCK_SIZE)) := by
  have hbx : ("./bkp" : String) ≠ "./bkp.xor" := by decide
  obtain ⟨p1, p2, p3⟩ := write_file_ok file_str "./bkp" numblocks t b w hw ht hb hlen
  have hk : (t.take (numblocks.toNat * SINGLE_BLOCK_SIZE)).length =
      numblocks.toNat * SINGLE_BLOCK_SIZE := by
    rw [List.length_take]; omega
  have hb1 : (write_file file_str "./bkp" numblocks w).2.fs "./bkp" =
      some (t.take (numblocks.toNat * SINGLE_BLOCK_SIZE) ++
        b.drop (numblocks.toNat * SINGLE_BLOCK_SIZE)) := by
    rw [p3, Function.update_same]
  have ht1 : (write_file file_str "./bkp" numblocks w).2.fs file_str = some t := by
    rw [write_file_keeps_source]
    exact ht
  obtain ⟨q1, q2, q3⟩ := transform_file_ok bo "./bkp" "./bkp.xor" seed numblocks _ _ hbx p2 hb1
    (by rw [List.length_append, hk]; omega)
  rw [List.take_left' hk] at q3
  have hmod := blocks_length_mod t numblocks.toNat hlen
  have hx2 : (transform_file bo "./bkp" "./bkp.xor" seed numblocks
      (write_file file_str "./bkp" numblocks w).2).2.fs "./bkp.xor" =
      some (transform_buffer bo seed (t.take (numblocks.toNat * SINGLE_BLOCK_SIZE))) := by
    rw [q3, Function.update_same]
  have hxl : (transform_buffer bo seed (t.take (numblocks.toNat * SINGLE_BLOCK_SIZE))).length =
      numblocks.toNat * SINGLE_BLOCK_SIZE := by
    rw [transform_buffer_length bo seed _ hmod, hk]
  have hb2 : (transform_file bo "./bkp" "./bkp.xor" seed numblocks
      (write_file file_str "./bkp" numblocks w).2).2.fs "./bkp" =
      some (t.take (numblocks.toNat * SINGLE_BLOCK_SIZE) ++
        b.drop (numblocks.toNat * SINGLE_BLOCK_SIZE)) := by
    rw [q3, Function.update_noteq hbx]
    exact hb1
  have hrun : ∀ r3 : Int × World,
      r3 = write_file "./bkp.xor" file_str numblocks (transform_file bo "./bkp" "./bkp.xor" seed
        numblocks (write_file file_str "./bkp" numblocks w).2).2 → r3.1 = 0 →
      run_phases bo file_str seed numblocks w = (0, r3.2) := by
    intro r3 h3 hz
    subst h3
    simp only [run_phases, p1, q1, hz, ne_eq, not_true_eq_false, if_false]
  by_cases hx : file_str = "./bkp.xor"
  · have ht2 : (transform_file bo "./bkp" "./bkp.xor" seed numblocks
        (write_file file_str "./bkp" numblocks w).2).2.fs file_str =
        some (transform_buffer bo seed (t.take (numblocks.toNat * SINGLE_BLOCK_SIZE))) := by
      rw [hx]
      rw [hx] at hx2
      exact hx2
    obtain ⟨r1, r2, r3⟩ := write_file_ok "./bkp.xor" file_str numblocks _ _ _ q2 hx2 ht2
      (by rw [hxl])
    rw [hrun _ rfl r1]
    simp only
    rw [r3, if_pos hx, List.append_nil]
    refine ⟨trivial, r2, ?_, ?_⟩
    · refine ⟨t.take (numblocks.toNat * SINGLE_BLOCK_SIZE) ++
        b.drop (numblocks.toNat * SINGLE_BLOCK_SIZE), ?_⟩
      rw [hx, Function.update_noteq hbx]
      rw [hx] at hb2
      exact hb2
    · rw [Function.update_same, List.take_append_drop]
  · have ht2 : (transform_file bo "./bkp" "./bkp.xor" seed numblocks
        (write_file file_str "./bkp" numblocks w).2).2.fs file_str = some t := by
      rw [q3, Function.update_noteq hx]
      exact ht1
    obtain ⟨r1, r2, r3⟩ := write_file_ok "./bkp.xor" file_str numblocks _ t _ q2 hx2 ht2
      (by rw [hxl])
    rw [List.take_of_length_le (by rw [hxl])] at r3
    rw [hrun _ rfl r1]
    simp only
    rw [r3, if_neg hx]
    refine ⟨trivial, r2, ?_, ?_⟩
    · by_cases hk2 : file_str = "./bkp"
      · refine ⟨transform_buffer bo seed (t.take (numblocks.toNat * SINGLE_BLOCK_SIZE)) ++
          t.drop (numblocks.toNat * SINGLE_BLOCK_SIZE), ?_⟩
        rw [hk2, Function.update_same]
      · refine ⟨t.take (numblocks.toNat * SINGLE_BLOCK_SIZE) ++
          b.drop (numblocks.toNat * SINGLE_BLOCK_SIZE), ?_⟩
        rw [Function.update_noteq (Ne.symm hk2)]
        exact hb2
    · rw [Function.update_same]

/-! ## Claims about main -/

theorem main_confirmed (bo : ByteOrder) (atol : String → Int)
    (blocks_str seed_str file_str : String) (env : Blkid) (nparts0 : Int)
    (stdin input0 : List Char) (w : World) (hp : reaches_prompt file_str env nparts0)
    (hyes : (strstr (cstr ((fgets 256 stdin).getD input0)) "yes".toList).isSome = true) :
    main bo atol (some blocks_str) (some seed_str) (some file_str) env nparts0 stdin input0 w =
      Result.ended (run_phases bo file_str (atol seed_str) (atol blocks_str) w).1
        (run_phases bo file_str (atol seed_str) (atol blocks_str) w).2 := by
  obtain ⟨h1, h2⟩ := hp
  simp only [main, h1, h2, hyes, if_true]
  rfl

theorem main_declined (bo : ByteOrder) (atol : String → Int)
    (blocks_str seed_str file_str : String) (env : Blkid) (nparts0 : Int)
    (stdin input0 : List Char) (w : World) (hp : reaches_prompt file_str env nparts0)
    (hno : (strstr (cstr ((fgets 256 stdin).getD input0)) "yes".toList).isSome = false) :
    main bo atol (some blocks_str) (some seed_str) (some file_str) env nparts0 stdin input0 w =
      Result.ended 0 w := by
  obtain ⟨h1, h2⟩ := hp
  simp only [main, h1, h2, hno]
  rfl

theorem main_world_unchanged (bo : ByteOrder) (atol : String → Int)
    (blocks_str seed_str file_str : Option String) (env : Blkid) (nparts0 : Int)
    (stdin input0 : List Char) (w : World)
    (hno : (strstr (cstr ((fgets 256 stdin).getD input0)) "yes".toList).isSome = false) :
    main bo atol blocks_str seed_str file_str env nparts0 stdin input0 w = Result.undefined ∨
      ∃ ret, main bo atol blocks_str seed_str file_str env nparts0 stdin input0 w =
        Result.ended ret w := by
  cases blocks_str with
  | none => exact Or.inr ⟨-1, rfl⟩
  | some bs =>
    cases seed_str with
    | none => exact Or.inr ⟨-1, rfl⟩
    | some ss =>
      cases file_str with
      | none => exact Or.inr ⟨-1, rfl⟩
      | some fs =>
        simp only [main, hno]
        split
        · exact Or.inr ⟨1, rfl⟩
        · split
          · exact Or.inl rfl
          · exact Or.inr ⟨0, rfl⟩

/-- The partition report can end the run before the prompt: when the device
of a listed partition cannot be probed, `main` has no result, whatever the
line on standard input. -/
theorem main_lost_partition (bo : ByteOrder) (atol : String → Int)
    (blocks_str seed_str : String) (stdin input0 : List Char) (w : World) :
    main bo atol (some blocks_str) (some seed_str) (some "/dev/sdb") lost_partition 0 stdin
      input0 w = Result.undefined := by
  have h : partition_loop "/dev/sdb" lost_partition (nparts_of lost_partition 0).toNat 0 false
      false false = false := by decide
  have hprobe : lost_partition.probe_ok = true := rfl
  simp only [main, h, hprobe]
  rfl

/-- C2. Pipeline reversal.  Let the target hold at least `K` full blocks,
`./bkp` exist, no I/O error occur, and both runs reach the prompt and get
the confirmation.  Then `main` run twice in a row with the same seed and
the same `K` returns 0 both times; after the first run the first `K` blocks
of the target are their transform; after the second run the first `K`
blocks of the target are byte for byte what they were before the first run,
and the whole target is, unless the target is `./bkp.xor` itself. -/
theorem pipeline_reversal (bo : ByteOrder) (atol : String → Int)
    (blocks_str seed_str file_str : String) (env1 env2 : Blkid) (n1 n2 : Int)
    (stdin1 input1 stdin2 input2 : List Char) (t b : List Byte) (w : World)
    (hp1 : reaches_prompt file_str env1 n1) (hp2 : reaches_prompt file_str env2 n2)
    (hy1 : (strstr (cstr ((fgets 256 stdin1).getD input1)) "yes".toList).isSome = true)
    (hy2 : (strstr (cstr ((fgets 256 stdin2).getD input2)) "yes".toList).isSome = true)
    (hw : NoFaults w) (ht : w.fs file_str = some t) (hb : w.fs "./bkp" = some b)
    (hlen : (atol blocks_str).toNat * SINGLE_BLOCK_SIZE ≤ t.length) :
    ∃ w1 w2 t1 t2,
      main bo atol (some blocks_str) (some seed_str) (some file_str) env1 n1 stdin1 input1 w =
        Result.ended 0 w1 ∧
      w1.fs file_str = some t1 ∧
      t1.take ((atol blocks_str).toNat * SINGLE_BLOCK_SIZE) =
        transform_buffer bo (atol seed_str)
          (t.take ((atol blocks_str).toNat * SINGLE_BLOCK_SIZE)) ∧
      main bo atol (some blocks_str) (some seed_str) (some file_str) env2 n2 stdin2 input2 w1 =
        Result.ended 0 w2 ∧
      w2.fs file_str = some t2 ∧
      t2.take ((atol blocks_str).toNat * SINGLE_BLOCK_SIZE) =
        t.take ((atol blocks_str).toNat * SINGLE_BLOCK_SIZE) ∧
      (file_str ≠ "./bkp.xor" → t2 = t) := by
  obtain ⟨p1, p2, ⟨b1, p3⟩, p4⟩ := run_phases_any_target bo file_str (atol seed_str)
    (atol blocks_str) t b w hw ht hb hlen
  have hmod := blocks_length_mod t _ hlen
  have hk : (t.take ((atol blocks_str).toNat * SINGLE_BLOCK_SIZE)).length =
      (atol blocks_str).toNat * SINGLE_BLOCK_SIZE := by
    rw [List.length_take]; omega
  have hxl := transform_buffer_length bo (atol seed_str) _ hmod
  rw [hk] at hxl
  obtain ⟨q1, _, _, q4⟩ := run_phases_any_target bo file_str (atol seed_str)
    (atol blocks_str) _ b1 _ p2 p4 p3 (by rw [List.length_append, hxl]; omega)
  rw [List.take_left' hxl, transform_buffer_involutive bo (atol seed_str) _ hmod] at q4
  refine ⟨_, _, _, _, ?_, p4, List.take_left' hxl, ?_, q4, List.take_left' hk, ?_⟩
  · rw [main_confirmed bo atol blocks_str seed_str file_str env1 n1 stdin1 input1 w hp1 hy1, p1]
  · rw [main_confirmed bo atol blocks_str seed_str file_str env2 n2 stdin2 input2 _ hp2 hy2, q1]
  · intro hx
    simp only [if_neg hx]
    rw [List.drop_left' hxl, List.take_append_drop]

/-- C2 at seed 42 and `K = 2` on a target of 2 MiB of the repeating byte
pattern, with an empty `./bkp` and the line `yes`: both runs return 0 and
the second leaves the target as it was.  The first run reports one
partition, the second an empty partition list. -/
theorem pipeline_reversal_witness :
    sample_atol "42" = 42 ∧ sample_atol "2" = 2 ∧
    ∃ w1 w2,
      main ByteOrder.little sample_atol (some "2") (some "42") (some "target") one_partition 0
        "yes\n".toList []
        (world_of [("target", pattern (2 * SINGLE_BLOCK_SIZE)), ("./bkp", [])] []) =
        Result.ended 0 w1 ∧
      main ByteOrder.little sample_atol (some "2") (some "42") (some "target") no_partitions 0
        "yes\n".toList [] w1 = Result.ended 0 w2 ∧
      w2.fs "target" = some (pattern (2 * SINGLE_BLOCK_SIZE)) := by
  obtain ⟨w1, w2, t1, t2, h1, _, _, h4, h5, _, h7⟩ := pipeline_reversal ByteOrder.little
    sample_atol "2" "42" "target" one_partition no_partitions 0 0 "yes\n".toList []
    "yes\n".toList [] (pattern (2 * SINGLE_BLOCK_SIZE)) []
    (world_of [("target", pattern (2 * SINGLE_BLOCK_SIZE)), ("./bkp", [])] [])
    (by decide) (by decide) (by decide) (by decide) (world_of_NoFaults _) rfl rfl
    (by rw [pattern_length]; exact Nat.le_refl _)
  refine ⟨by decide, by decide, w1, w2, h1, h4, ?_⟩
  rw [h5, h7 (by decide)]

/-- C5, refuted as stated.  With the target `./bkp.xor` (four bytes, `K = 0`,
`./bkp` present) and an I/O error at the third call, the `fopen` of `./bkp`
for reading, the backup returns 0 and `transform_file` fails; `main` returns
-1, yet the target, truncated by the `fopen` of `./bkp.xor` for writing, is
no longer what it was. -/
theorem phase_gating_truncates_target :
    (write_file "./bkp.xor" "./bkp" (sample_atol "0")
      (world_of [("./bkp.xor", [1, 2, 3, 4]), ("./bkp", [])]
        [Outcome.ok, Outcome.ok, Outcome.error 0, Outcome.ok])).1 = 0 ∧
    (transform_file ByteOrder.little "./bkp" "./bkp.xor" (sample_atol "42") (sample_atol "0")
      (write_file "./bkp.xor" "./bkp" (sample_atol "0")
        (world_of [("./bkp.xor", [1, 2, 3, 4]), ("./bkp", [])]
          [Outcome.ok, Outcome.ok, Outcome.error 0, Outcome.ok])).2).1 ≠ 0 ∧
    (world_of [("./bkp.xor", [1, 2, 3, 4]), ("./bkp", [])]
      [Outcome.ok, Outcome.ok, Outcome.error 0, Outcome.ok]).fs "./bkp.xor" =
      some [1, 2, 3, 4] ∧
    ∃ w1,
      main ByteOrder.little sample_atol (some "0") (some "42") (some "./bkp.xor") no_partitions 0
        "yes\n".toList []
        (world_of [("./bkp.xor", [1, 2, 3, 4]), ("./bkp", [])]
          [Outcome.ok, Outcome.ok, Outcome.error 0, Outcome.ok]) = Result.ended (-1) w1 ∧
      w1.fs "./bkp.xor" = some [] := by
  have hrun := main_confirmed ByteOrder.little sample_atol "0" "42" "./bkp.xor" no_partitions 0
    "yes\n".toList []
    (world_of [("./bkp.xor", [1, 2, 3, 4]), ("./bkp", [])]
      [Outcome.ok, Outcome.ok, Outcome.error 0, Outcome.ok]) (by decide) (by decide)
  have hret : (run_phases ByteOrder.little "./bkp.xor" (sample_atol "42") (sample_atol "0")
      (world_of [("./bkp.xor", [1, 2, 3, 4]), ("./bkp", [])]
        [Outcome.ok, Outcome.ok, Outcome.error 0, Outcome.ok])).1 = -1 := by decide
  rw [hret] at hrun
  exact ⟨by decide, by decide, by decide, _, hrun, by decide⟩

/-- C5, amended.  Phase gating in the confirmed branch of `main`, whatever
I/O errors occur.  If the backup `write_file` fails, `main` returns -1 in
the world that call left, so no later phase has run, and `./bkp.xor` and the
target are as before.  If the backup succeeds and `transform_file` fails,
`main` returns -1 in the world that call left, so the write-back has not
run, and the target is as before provided it is not `./bkp.xor` itself.  If
the write-back fails `main` returns -1.  The value -1 is a non-zero exit
status.  In particular, when the target holds fewer full blocks than asked
for (3 asked, 2 held), the backup phase fails: `main` returns -1 with the
target and `./bkp.xor` as before. -/
theorem phase_gating (bo : ByteOrder) (atol : String → Int)
    (blocks_str seed_str file_str : String) (env : Blkid) (nparts0 : Int)
    (stdin input0 : List Char) (w : World) (hp : reaches_prompt file_str env nparts0)
    (hyes : (strstr (cstr ((fgets 256 stdin).getD input0)) "yes".toList).isSome = true) :
    let r1 := write_file file_str "./bkp" (atol blocks_str) w
    let r2 := transform_file bo "./bkp" "./bkp.xor" (atol seed_str) (atol blocks_str) r1.2
    let r3 := write_file "./bkp.xor" file_str (atol blocks_str) r2.2
    let result := main bo atol (some blocks_str) (some seed_str) (some file_str) env nparts0
      stdin input0 w
    (r1.1 ≠ 0 → result = Result.ended (-1) r1.2 ∧
      r1.2.fs "./bkp.xor" = w.fs "./bkp.xor" ∧ r1.2.fs file_str = w.fs file_str) ∧
    (r1.1 = 0 → r2.1 ≠ 0 → result = Result.ended (-1) r2.2 ∧
      (file_str ≠ "./bkp.xor" → r2.2.fs file_str = w.fs file_str)) ∧
    (r1.1 = 0 → r2.1 = 0 → r3.1 ≠ 0 → result = Result.ended (-1) r3.2) ∧
    (r1.1 = 0 → r2.1 = 0 → r3.1 = 0 → result = Result.ended 0 r3.2) ∧
    exit_status (-1) ≠ 0 ∧
    (∀ t, w.fs file_str = some t →
      t.length < (atol blocks_str).toNat * SINGLE_BLOCK_SIZE →
      r1.1 ≠ 0 ∧ result = Result.ended (-1) r1.2 ∧ r1.2.fs file_str = some t ∧
      r1.2.fs "./bkp.xor" = w.fs "./bkp.xor") := by
  intro r1 r2 r3 result
  have hres : result = Result.ended
      (run_phases bo file_str (atol seed_str) (atol blocks_str) w).1
      (run_phases bo file_str (atol seed_str) (atol blocks_str) w).2 :=
    main_confirmed bo atol blocks_str seed_str file_str env nparts0 stdin input0 w hp hyes
  have hbx : ("./bkp.xor" : String) ≠ "./bkp" := by decide
  have f1 : r1.2.fs "./bkp.xor" = w.fs "./bkp.xor" :=
    write_file_frame file_str "./bkp" (atol blocks_str) w _ hbx
  have k1 : r1.2.fs file_str = w.fs file_str :=
    write_file_keeps_source file_str "./bkp" (atol blocks_str) w
  have f2 : ∀ q, q ≠ "./bkp.xor" → r2.2.fs q = r1.2.fs q :=
    fun q hq => transform_file_frame bo "./bkp" "./bkp.xor" (atol seed_str) (atol blocks_str)
      r1.2 q hq
  have hfirst : r1.1 ≠ 0 → result = Result.ended (-1) r1.2 := by
    intro hf
    rw [hres]
    simp only [run_phases]
    rw [if_pos hf]
  refine ⟨?_, ?_, ?_, ?_, by decide, ?_⟩
  · intro hf
    exact ⟨hfirst hf, f1, k1⟩
  · intro hs hf
    refine ⟨?_, fun hx => by rw [f2 _ hx, k1]⟩
    rw [hres]
    simp only [run_phases]
    rw [if_neg (not_not.mpr hs), if_pos hf]
  · intro hs1 hs2 hf
    rw [hres]
    simp only [run_phases]
    rw [if_neg (not_not.mpr hs1), if_neg (not_not.mpr hs2), if_pos hf]
  · intro hs1 hs2 hs3
    rw [hres]
    simp only [run_phases]
    rw [if_neg (not_not.mpr hs1), if_neg (not_not.mpr hs2), if_neg (not_not.mpr hs3)]
  · intro t ht hlt
    have hfail : r1.1 = -1 :=
      write_file_lacking file_str "./bkp" (atol blocks_str) t w ht hlt
    have hf : r1.1 ≠ 0 := by rw [hfail]; decide
    exact ⟨hf, hfirst hf, k1.trans ht, f1⟩

theorem word_at_transform_buffer (bo : ByteOrder) (seed : Int) (l : List Byte) (n : Nat)
    (hl : l.length % 4 = 0) (hn : 4 * n + 4 ≤ l.length) :
    word_at bo (transform_buffer bo seed l) n =
      word_at bo l n ^^^ spec_step^[n + 1] (seed % 2 ^ 32).toNat := by
  rw [transform_buffer_eq bo seed l hl, word_at_xor_words bo l _ n (state_of_seed_lt seed) hn]
  exact congrArg _ (draw_eq_iterate n (seed % 2 ^ 32).toNat (state_of_seed_lt seed))

/-- C5, amended, on two runs.  With `K = 3` on a target of two blocks the
backup phase fails: `main` returns -1, the target is as before, `./bkp.xor`
does not exist.  With an I/O error at the fourth call (the `fopen` of
`./bkp.xor`) the transform phase fails: `main` returns -1 and the target is
as before. -/
theorem phase_gating_witness :
    (∃ w1,
      main ByteOrder.little sample_atol (some "3") (some "42") (some "target") one_partition 0
        "yes\n".toList []
        (world_of [("target", pattern (2 * SINGLE_BLOCK_SIZE)), ("./bkp", [])] []) =
        Result.ended (-1) w1 ∧
      w1.fs "target" = some (pattern (2 * SINGLE_BLOCK_SIZE)) ∧ w1.fs "./bkp.xor" = none) ∧
    ∃ w2,
      main ByteOrder.little sample_atol (some "0") (some "42") (some "target") no_partitions 0
        "yes\n".toList []
        (world_of [("target", []), ("./bkp", [])]
          [Outcome.ok, Outcome.ok, Outcome.ok, Outcome.error 0]) = Result.ended (-1) w2 ∧
      w2.fs "target" = some [] := by
  have hA := (phase_gating ByteOrder.little sample_atol "3" "42" "target" one_partition 0
    "yes\n".toList []
    (world_of [("target", pattern (2 * SINGLE_BLOCK_SIZE)), ("./bkp", [])] [])
    (by decide) (by decide)).2.2.2.2.2 (pattern (2 * SINGLE_BLOCK_SIZE)) rfl
    (by rw [pattern_length, block_size_value]; decide)
  have hB := (phase_gating ByteOrder.little sample_atol "0" "42" "target" no_partitions 0
    "yes\n".toList []
    (world_of [("target", []), ("./bkp", [])]
      [Outcome.ok, Outcome.ok, Outcome.ok, Outcome.error 0])
    (by decide) (by decide)).2.1 (by decide) (by decide)
  refine ⟨⟨_, hA.2.1, hA.2.2.1, ?_⟩, ⟨_, hB.1, ?_⟩⟩
  · rw [hA.2.2.2]
    exact rfl
  · rw [hB.2 (by decide)]
    exact rfl

/-- C6, refuted as stated.  The line `yesterday` is not the token `yes`, yet
with `K = 1` and seed 1 on a target of one block of zero bytes (an empty
`./bkp` present) the phases run: the target is no longer what it was and
`./bkp.xor`, absent before, exists afterwards. -/
theorem confirmation_accepts_yesterday :
    "yesterday\n" ≠ "yes\n" ∧
      (world_of [("target", List.replicate SINGLE_BLOCK_SIZE 0), ("./bkp", [])] []).fs
          "./bkp.xor" = none ∧
      ∃ ret w1,
        main ByteOrder.little sample_atol (some "1") (some "1") (some "target") no_partitions 0
          "yesterday\n".toList []
          (world_of [("target", List.replicate SINGLE_BLOCK_SIZE 0), ("./bkp", [])] []) =
          Result.ended ret w1 ∧
        w1.fs "target" ≠
          (world_of [("target", List.replicate SINGLE_BLOCK_SIZE 0), ("./bkp", [])] []).fs
            "target" ∧
        w1.fs "./bkp.xor" ≠ none := by
  have hrun := main_confirmed ByteOrder.little sample_atol "1" "1" "target" no_partitions 0
    "yesterday\n".toList []
    (world_of [("target", List.replicate SINGLE_BLOCK_SIZE 0), ("./bkp", [])] []) (by decide)
    (by decide)
  have hone : (sample_atol "1").toNat * SINGLE_BLOCK_SIZE = SINGLE_BLOCK_SIZE := by
    have h1 : (sample_atol "1").toNat = 1 := by decide
    rw [h1, Nat.one_mul]
  obtain ⟨_, _, p3, _, p5, _⟩ := run_phases_ok ByteOrder.little "target" (sample_atol "1")
    (sample_atol "1") (List.replicate SINGLE_BLOCK_SIZE 0) []
    (world_of [("target", List.replicate SINGLE_BLOCK_SIZE 0), ("./bkp", [])] [])
    (by decide) (by decide) (world_of_NoFaults _) rfl rfl
    (by rw [hone, List.length_replicate])
  refine ⟨by decide, rfl, _, _, hrun, ?_, ?_⟩
  · rw [p3, hone]
    intro heq
    have hzeros : (world_of [("target", List.replicate SINGLE_BLOCK_SIZE 0), ("./bkp", [])]
        []).fs "target" = some (List.replicate SINGLE_BLOCK_SIZE 0) := rfl
    rw [hzeros, List.take_of_length_le (by rw [List.length_replicate]),
      List.drop_of_length_le (by rw [List.length_replicate]), List.append_nil] at heq
    have hw0 := congrArg (fun l => word_at ByteOrder.little l 0) (Option.some.inj heq)
    simp only at hw0
    rw [word_at_transform_buffer ByteOrder.little (sample_atol "1") _ 0
      (by rw [List.length_replicate, block_size_value])
      (by rw [List.length_replicate, block_size_value]; norm_num)] at hw0
    have hz : word_at ByteOrder.little (List.replicate SINGLE_BLOCK_SIZE (0 : Byte)) 0 = 0 := by
      rw [block_size_value]
      rfl
    rw [hz] at hw0
    revert hw0
    decide
  · rw [p5]
    exact Option.some_ne_none _

/-- C6, amended.  Once the run has reached the prompt, the phases run
exactly when the line stored by `fgets` (at most 255 characters, read up to
its first NUL) contains `yes` as a run of consecutive characters: in that
case `main` ends as the three-phase run does.  For every line that does not
contain it, `main` returns 0 with the world unchanged (no phase has run, no
file is created or modified); and whatever the arguments and whatever
libblkid reports, a run that ends leaves the world unchanged. -/
theorem confirmation_gate (bo : ByteOrder) (atol : String → Int)
    (blocks_str seed_str file_str : String) (env : Blkid) (nparts0 : Int)
    (stdin input0 : List Char) (w : World) (hp : reaches_prompt file_str env nparts0) :
    ((∃ pre post, cstr ((fgets 256 stdin).getD input0) = pre ++ "yes".toList ++ post) →
      main bo atol (some blocks_str) (some seed_str) (some file_str) env nparts0 stdin input0
          w =
        Result.ended (run_phases bo file_str (atol seed_str) (atol blocks_str) w).1
          (run_phases bo file_str (atol seed_str) (atol blocks_str) w).2) ∧
    ((¬ ∃ pre post, cstr ((fgets 256 stdin).getD input0) = pre ++ "yes".toList ++ post) →
      main bo atol (some blocks_str) (some seed_str) (some file_str) env nparts0 stdin input0
          w = Result.ended 0 w ∧
      ∀ (a b c : Option String) (env2 : Blkid) (n2 : Int),
        main bo atol a b c env2 n2 stdin input0 w = Result.undefined ∨
          ∃ ret, main bo atol a b c env2 n2 stdin input0 w = Result.ended ret w) := by
  refine ⟨?_, ?_⟩
  · intro h
    exact main_confirmed bo atol blocks_str seed_str file_str env nparts0 stdin input0 w hp
      ((strstr_isSome_iff _ _).mpr h)
  · intro h
    have hno : (strstr (cstr ((fgets 256 stdin).getD input0)) "yes".toList).isSome = false :=
      Bool.eq_false_iff.mpr (fun hs => h ((strstr_isSome_iff _ _).mp hs))
    exact ⟨main_declined bo atol blocks_str seed_str file_str env nparts0 stdin input0 w hp hno,
      fun a b c env2 n2 => main_world_unchanged bo atol a b c env2 n2 stdin input0 w hno⟩

/-- C6, amended, on three lines: `no` leaves the world as it is and returns
0; `yes` and `oh yes please` run the phases. -/
theorem confirmation_gate_witness :
    main ByteOrder.little sample_atol (some "1") (some "1") (some "target") one_partition 0
        "no\n".toList [] (world_of [("target", pattern SINGLE_BLOCK_SIZE), ("./bkp", [])] []) =
      Result.ended 0 (world_of [("target", pattern SINGLE_BLOCK_SIZE), ("./bkp", [])] []) ∧
    main ByteOrder.little sample_atol (some "1") (some "1") (some "target") one_partition 0
        "yes\n".toList [] (world_of [("target", pattern SINGLE_BLOCK_SIZE), ("./bkp", [])] []) =
      Result.ended
        (run_phases ByteOrder.little "target" (sample_atol "1") (sample_atol "1")
          (world_of [("target", pattern SINGLE_BLOCK_SIZE), ("./bkp", [])] [])).1
        (run_phases ByteOrder.little "target" (sample_atol "1") (sample_atol "1")
          (world_of [("target", pattern SINGLE_BLOCK_SIZE), ("./bkp", [])] [])).2 ∧
    main ByteOrder.little sample_atol (some "1") (some "1") (some "target") no_partitions 0
        "oh yes please\n".toList []
        (world_of [("target", pattern SINGLE_BLOCK_SIZE), ("./bkp", [])] []) =
      Result.ended
        (run_phases ByteOrder.little "target" (sample_atol "1") (sample_atol "1")
          (world_of [("target", pattern SINGLE_BLOCK_SIZE), ("./bkp", [])] [])).1
        (run_phases ByteOrder.little "target" (sample_atol "1") (sample_atol "1")
          (world_of [("target", pattern SINGLE_BLOCK_SIZE), ("./bkp", [])] [])).2 :=
  ⟨((confirmation_gate ByteOrder.little sample_atol "1" "1" "target" one_partition 0
      "no\n".toList [] (world_of [("target", pattern SINGLE_BLOCK_SIZE), ("./bkp", [])] [])
      (by decide)).2
      (fun h => absurd ((strstr_isSome_iff _ _).mpr h) (by decide))).1,
    (confirmation_gate ByteOrder.little sample_atol "1" "1" "target" one_partition 0
      "yes\n".toList [] (world_of [("target", pattern SINGLE_BLOCK_SIZE), ("./bkp", [])] [])
      (by decide)).1
      ⟨[], [Char.ofNat 10], by decide⟩,
    (confirmation_gate ByteOrder.little sample_atol "1" "1" "target" no_partitions 0
      "oh yes please\n".toList []
      (world_of [("target", pattern SINGLE_BLOCK_SIZE), ("./bkp", [])] [])
      (by decide)).1
      ⟨"oh ".toList, " please\n".toList, by decide⟩⟩

end Testapp
